import Mathlib

/-!
Shallow embedding of the `postcss-remove-duplicate-values` plugin core
(`src/index.js`): the `Once` visitor that walks every rule of a stylesheet
tree, removes duplicate property declarations inside each rule (last wins,
`!important` dominates), prunes empty rules, and gates everything behind an
optional selector filter.
-/

namespace RemoveDup

/-- A declaration node: property name, value and `important` flag.
Missing property/value on the JS side are embedded as the empty string,
which is exactly what the plugin's falsiness checks test for. -/
structure Decl where
  prop : String
  value : String
  important : Bool
deriving Repr, DecidableEq

/-- A child node of a rule: a declaration or a comment. -/
inductive Node where
  | decl (d : Decl)
  | comment (text : String)
deriving Repr, DecidableEq

/-- A rule: selector text plus ordered child nodes. -/
structure Rule where
  selector : String
  nodes : List Node
deriving Repr, DecidableEq

/-- A top-level node of the stylesheet tree: a rule, a conditional group
(at-rule such as a media block) holding child rules, or a comment.
`root.walkRules` visits the rules at top level and inside at-rules. -/
inductive RootNode where
  | rule (r : Rule)
  | atRule (params : String) (rules : List Rule)
  | comment (text : String)
deriving Repr, DecidableEq

/-- The `selector` option as the JS runtime sees it: a string, a RegExp
(embedded as its `test` predicate), a function, absent, or a value of any
other type of which only JS truthiness is observable. -/
inductive SelectorConfig where
  | undef
  | str (s : String)
  | regex (test : String → Bool)
  | func (f : String → Bool)
  | other (truthyVal : Bool)

/-- JS truthiness of the configured `selector` value, which gates
`if (selector) { ... }` in the plugin. A string is truthy iff nonempty;
RegExp objects and functions are always truthy. -/
def SelectorConfig.truthy : SelectorConfig → Bool
  | .undef => false
  | .str s => !(s == "")
  | .regex _ => true
  | .func _ => true
  | .other b => b

/-- JS `value.trim()`: strip whitespace from both ends, over the unpacked
character list so that concrete instances evaluate. -/
def strTrim (s : String) : String :=
  ⟨((s.data.dropWhile Char.isWhitespace).reverse.dropWhile Char.isWhitespace).reverse⟩

/-- JS `hay.indexOf(needle) !== -1` over unpacked characters. -/
def containsSeq (needle : List Char) : List Char → Bool
  | [] => needle.isEmpty
  | c :: t => needle.isPrefixOf (c :: t) || containsSeq needle t

/-- JS `walkSelector.indexOf(selector) !== -1`. -/
def strContains (hay needle : String) : Bool :=
  containsSeq needle.data hay.data

/-- The `matchSelector` helper from `src/index.js`: string → substring test,
RegExp → `test`, function → call; anything else falls through to `false`. -/
def matchSelector (selector : SelectorConfig) (walkSelector : String) : Bool :=
  match selector with
  | .str s => strContains walkSelector s
  | .regex t => t walkSelector
  | .func f => f walkSelector
  | _ => false

/-- JS `property.startsWith(p)`, over unpacked characters. -/
def startsWith (property p : String) : Bool :=
  p.data.isPrefixOf property.data

/-- The `isValidFallbackValue` helper from `src/index.js`: vendor-prefix check. -/
def isValidFallbackValue (property : String) : Bool :=
  startsWith property "-webkit-" ||
  startsWith property "-moz-" ||
  startsWith property "-ms-" ||
  startsWith property "-o-"

/-- Is this node a comment? (`v.type === 'comment'`). -/
def Node.isComment : Node → Bool
  | .comment _ => true
  | .decl _ => false

/-- The `isEmpty` helper from `src/index.js`: no children, or only comment children. -/
def isEmpty (rule : Rule) : Bool :=
  rule.nodes.length == 0 ||
  (rule.nodes.filter (fun v => !v.isComment)).length == 0

/-- Entry of the `fallbackRuleDeclarations` map: `{ important, declaration }`;
the declaration handle is embedded as the node's index in the rule. -/
structure FbEntry where
  important : Bool
  idx : Nat
deriving Repr, DecidableEq

/-- Entry of the `ruleDeclarations` map: `{ value, important, declaration }`. -/
structure StdEntry where
  value : String
  important : Bool
  idx : Nat
deriving Repr, DecidableEq

/-- State of one rule's `walkDecls` pass: the two maps plus the set of
indices of declarations removed so far. -/
structure RState where
  ruleDeclarations : List (String × StdEntry)
  fallbackRuleDeclarations : List (String × FbEntry)
  removed : List Nat
deriving Repr

/-- JS `Map.get` over an association list. -/
def alGet (m : List (String × α)) (k : String) : Option α :=
  match m.find? (fun p => p.1 == k) with
  | some p => some p.2
  | none => none

/-- JS `Map.set`: later bindings shadow earlier ones. -/
def alSet (m : List (String × α)) (k : String) (v : α) : List (String × α) :=
  (k, v) :: m

/-- The body of the `walkDecls` callback for one declaration at index `i`:
skip invalid declarations, then resolve duplicates against the map chosen by
the vendor-prefix classifier (last wins; `!important` beats non-important). -/
def declStep (s : RState) (i : Nat) (d : Decl) : RState :=
  if d.prop == "" || d.value == "" then s
  else
    let key := d.prop
    let value := strTrim d.value
    let important := d.important
    if isValidFallbackValue key then
      match alGet s.fallbackRuleDeclarations key with
      | some existingFallback =>
        if existingFallback.important then
          if important then
            { s with removed := existingFallback.idx :: s.removed,
                     fallbackRuleDeclarations :=
                       alSet s.fallbackRuleDeclarations key ⟨important, i⟩ }
          else
            { s with removed := i :: s.removed }
        else
          { s with removed := existingFallback.idx :: s.removed,
                   fallbackRuleDeclarations :=
                     alSet s.fallbackRuleDeclarations key ⟨important, i⟩ }
      | none =>
        { s with fallbackRuleDeclarations :=
                   alSet s.fallbackRuleDeclarations key ⟨important, i⟩ }
    else
      match alGet s.ruleDeclarations key with
      | some data =>
        if data.important then
          if important then
            { s with removed := data.idx :: s.removed,
                     ruleDeclarations :=
                       alSet s.ruleDeclarations key ⟨value, important, i⟩ }
          else
            { s with removed := i :: s.removed }
        else
          { s with removed := data.idx :: s.removed,
                   ruleDeclarations :=
                     alSet s.ruleDeclarations key ⟨value, important, i⟩ }
      | none =>
        { s with ruleDeclarations :=
                   alSet s.ruleDeclarations key ⟨value, important, i⟩ }

/-- One `walkDecls` step on an indexed child node (comments are not visited
by `walkDecls`). -/
def nodeStep (s : RState) (p : Nat × Node) : RState :=
  match p.2 with
  | .comment _ => s
  | .decl d => declStep s p.1 d

/-- Fresh maps at the start of a rule's pass. -/
def initState : RState := ⟨[], [], []⟩

/-- The state after the full `walkDecls` pass over a rule's children. -/
def finalState (ns : List Node) : RState :=
  ns.enum.foldl nodeStep initState

/-- The rule's children after the pass: every child whose index was not
removed, in original order (`declaration.remove()` detaches in place). -/
def resolveNodes (ns : List Node) : List Node :=
  (ns.enum.filter (fun p => !((finalState ns).removed.contains p.1))).map Prod.snd

/-- Plugin options: the selector filter and `preserveEmpty` (default false). -/
structure Config where
  selector : SelectorConfig
  preserveEmpty : Bool

/-- Processing of one visited rule, from the `walkRules` callback:
gate on the selector filter, prune empty rules unless preserved, otherwise
run the duplicate-resolution pass. `none` means the rule was removed. -/
def processRule (cfg : Config) (r : Rule) : Option Rule :=
  if cfg.selector.truthy && !matchSelector cfg.selector r.selector then
    some r
  else if isEmpty r then
    if cfg.preserveEmpty then some r else Option.none
  else
    some { r with nodes := resolveNodes r.nodes }

/-- Effect of the pass on one top-level node: comments are untouched, rules
go through `processRule`, conditional groups keep their condition and have
their child rules processed in place. -/
def processRootNode (cfg : Config) : RootNode → Option RootNode
  | .comment t => some (.comment t)
  | .rule r => (processRule cfg r).map RootNode.rule
  | .atRule p rs => some (.atRule p (rs.filterMap (processRule cfg)))

/-- The whole `Once` pass: visit every rule, at top level and inside
conditional groups, and apply `processRule`; removed rules are detached. -/
def transformRoot (cfg : Config) (root : List RootNode) : List RootNode :=
  root.filterMap (processRootNode cfg)

/-- A well-formed declaration node: nonempty property and value
(the nodes the plugin does not skip). -/
def isValidDecl : Node → Bool
  | .decl d => !(d.prop == "") && !(d.value == "")
  | .comment _ => false

/-- A well-formed declaration node whose property is `k`. -/
def keyDecl (k : String) : Node → Bool
  | .decl d => (!(d.prop == "") && !(d.value == "")) && d.prop == k
  | .comment _ => false

/-- Is this node an `!important` declaration? -/
def Node.isImportantNode : Node → Bool
  | .decl d => d.important
  | .comment _ => false

/-- Modelled from the spec's cascade description: among a rule's well-formed
declarations for property `k`, the one that should survive is the last
`!important` one in source order if any exists, otherwise the last one. -/
def specWinner (ns : List Node) (k : String) : Option Node :=
  let items := ns.filter (keyDecl k)
  let imps := items.filter Node.isImportantNode
  if imps.isEmpty then items.getLast? else imps.getLast?

/-! ### Per-key view of the resolution pass -/

/-- Project an indexed child node to a key-`k` item: the indexed declaration
when the node is a well-formed declaration for property `k`. -/
def keyItem (k : String) (p : Nat × Node) : Option (Nat × Decl) :=
  match p.2 with
  | .decl d =>
    if (!(d.prop == "") && !(d.value == "")) && d.prop == k then some (p.1, d)
    else Option.none
  | .comment _ => Option.none

/-- The indexed well-formed declarations for property `k` among `ps`. -/
def keyItems (k : String) (ps : List (Nat × Node)) : List (Nat × Decl) :=
  ps.filterMap (keyItem k)

/-- How the surviving candidate for one key evolves when the next
declaration for that key arrives: last wins, except that a non-important
newcomer loses to an important incumbent. -/
def candStep (c : Option (Nat × Decl)) (x : Nat × Decl) : Option (Nat × Decl) :=
  match c with
  | Option.none => some x
  | some y => if y.2.important then (if x.2.important then some x else some y) else some x

/-- The surviving candidate after a whole list of same-key items. -/
def candOf (l : List (Nat × Decl)) : Option (Nat × Decl) :=
  l.foldl candStep Option.none

/-- The candidate recorded for key `k` in the state, read from whichever of
the two maps the vendor-prefix classifier routes `k` to, reduced to the
fields the algorithm consults: the important flag and the node index. -/
def entryView (s : RState) (k : String) : Option (Bool × Nat) :=
  if isValidFallbackValue k then
    (alGet s.fallbackRuleDeclarations k).map (fun e => (e.important, e.idx))
  else
    (alGet s.ruleDeclarations k).map (fun e => (e.important, e.idx))

/-- The `candStep` transition on the `(important, idx)` view. -/
def viewStep (c : Option (Bool × Nat)) (imp : Bool) (i : Nat) : Option (Bool × Nat) :=
  match c with
  | Option.none => some (imp, i)
  | some y => if y.1 then (if imp then some (imp, i) else some y) else some (imp, i)

/-- Reduce a candidate to its `(important, idx)` view. -/
def view (c : Option (Nat × Decl)) : Option (Bool × Nat) :=
  c.map (fun x => (x.2.important, x.1))

theorem alGet_set_self (m : List (String × α)) (k : String) (v : α) :
    alGet (alSet m k v) k = some v := by
  simp [alGet, alSet, List.find?]

theorem alGet_set_ne (m : List (String × α)) (k k' : String) (v : α) (h : ¬ k = k') :
    alGet (alSet m k v) k' = alGet m k' := by
  simp only [alGet, alSet, List.find?]
  have : (k == k') = false := by simpa using h
  simp [this]

theorem candOf_append (l : List (Nat × Decl)) (x : Nat × Decl) :
    candOf (l ++ [x]) = candStep (candOf l) x := by
  simp [candOf, List.foldl_append]

theorem candStep_isSome (c : Option (Nat × Decl)) (x : Nat × Decl) :
    (candStep c x).isSome = true := by
  cases c with
  | none => simp [candStep]
  | some y =>
    simp only [candStep]
    by_cases h1 : y.2.important <;> by_cases h2 : x.2.important <;> simp [h1, h2]

theorem candOf_eq_none {l : List (Nat × Decl)} (h : candOf l = Option.none) : l = [] := by
  induction l using List.reverseRecOn with
  | nil => rfl
  | append_singleton l x _ =>
    rw [candOf_append] at h
    have := candStep_isSome (candOf l) x
    rw [h] at this
    simp at this

theorem candOf_mem : ∀ {l : List (Nat × Decl)} {x : Nat × Decl},
    candOf l = some x → x ∈ l := by
  intro l
  induction l using List.reverseRecOn with
  | nil => intro x h; simp [candOf] at h
  | append_singleton l a ih =>
    intro x h
    rw [candOf_append] at h
    cases hc : candOf l with
    | none => rw [hc] at h; simp [candStep] at h; simp [h]
    | some y =>
      rw [hc] at h
      simp only [candStep] at h
      by_cases h1 : y.2.important
      · by_cases h2 : a.2.important
        · simp [h1, h2] at h; simp [h]
        · simp [h1, h2] at h
          exact List.mem_append_left _ (h ▸ ih hc)
      · simp [h1] at h; simp [h]

theorem view_candStep (c : Option (Nat × Decl)) (x : Nat × Decl) :
    view (candStep c x) = viewStep (view c) x.2.important x.1 := by
  cases c with
  | none => rfl
  | some y =>
    simp only [candStep, viewStep, view, Option.map_some]
    by_cases h1 : y.2.important <;> by_cases h2 : x.2.important <;> simp [h1, h2]

/-- Closed form of `candOf`: the last important item when one exists,
otherwise the last item. -/
theorem candOf_closed (l : List (Nat × Decl)) :
    candOf l = if (l.filter (fun p => p.2.important)).isEmpty
               then l.getLast?
               else (l.filter (fun p => p.2.important)).getLast? := by
  induction l using List.reverseRecOn with
  | nil => simp [candOf]
  | append_singleton l x ih =>
    rw [candOf_append, ih]
    by_cases hx : x.2.important
    · have hf : (l ++ [x]).filter (fun p => p.2.important) =
          l.filter (fun p => p.2.important) ++ [x] := by
        simp [List.filter_append, hx]
      rw [hf]
      by_cases he : (l.filter (fun p => p.2.important)).isEmpty
      · have hl : l.filter (fun p => p.2.important) = [] := by simpa using he
        rcases hlast : l.getLast? with _ | y
        · have : l = [] := by simpa using hlast
          subst this
          simp [candStep, hx]
        · have hy : y ∈ l := List.mem_of_mem_getLast? hlast
          have hyni : ¬ y.2.important = true := by
            intro hyi
            have : y ∈ l.filter (fun p => p.2.important) := by
              simp [List.mem_filter, hy, hyi]
            simp [hl] at this
          simp [he, hlast, candStep, hyni, hx, hl]
      · rcases hlast : (l.filter (fun p => p.2.important)).getLast? with _ | y
        · have : l.filter (fun p => p.2.important) = [] := by simpa using hlast
          simp [this] at he
        · have hy : y ∈ l.filter (fun p => p.2.important) := List.mem_of_mem_getLast? hlast
          have hyi : y.2.important = true := (List.mem_filter.mp hy).2
          simp [he, hlast, candStep, hyi, hx]
    · have hf : (l ++ [x]).filter (fun p => p.2.important) =
          l.filter (fun p => p.2.important) := by
        simp [List.filter_append, hx]
      rw [hf]
      by_cases he : (l.filter (fun p => p.2.important)).isEmpty
      · have hl : l.filter (fun p => p.2.important) = [] := by simpa using he
        rcases hlast : l.getLast? with _ | y
        · have : l = [] := by simpa using hlast
          subst this
          simp [candStep, hx]
        · have hy : y ∈ l := List.mem_of_mem_getLast? hlast
          have hyni : ¬ y.2.important = true := by
            intro hyi
            have : y ∈ l.filter (fun p => p.2.important) := by
              simp [List.mem_filter, hy, hyi]
            simp [hl] at this
          simp [he, hlast, candStep, hyni, hx, hl]
      · rcases hlast : (l.filter (fun p => p.2.important)).getLast? with _ | y
        · have : l.filter (fun p => p.2.important) = [] := by simpa using hlast
          simp [this] at he
        · have hy : y ∈ l.filter (fun p => p.2.important) := List.mem_of_mem_getLast? hlast
          have hyi : y.2.important = true := (List.mem_filter.mp hy).2
          simp [he, hlast, candStep, hyi, hx]

theorem declStep_invalid (s : RState) (i : Nat) (d : Decl)
    (h : (d.prop == "" || d.value == "") = true) : declStep s i d = s := by
  simp [declStep, h]

theorem entryView_update_fb (s : RState) (key : String) (e : FbEntry) (rm : List Nat)
    (hfb : isValidFallbackValue key = true) (k : String) :
    entryView { s with
                fallbackRuleDeclarations := alSet s.fallbackRuleDeclarations key e
                removed := rm } k =
      if k = key then some (e.important, e.idx) else entryView s k := by
  by_cases hk : k = key
  · subst hk
    simp [entryView, hfb, alGet_set_self]
  · simp only [entryView, if_neg hk]
    by_cases hvk : isValidFallbackValue k
    · simp [hvk, alGet_set_ne _ key k _ (fun h => hk h.symm)]
    · simp [hvk]

theorem entryView_update_std (s : RState) (key : String) (e : StdEntry) (rm : List Nat)
    (hfb : isValidFallbackValue key = false) (k : String) :
    entryView { s with
                ruleDeclarations := alSet s.ruleDeclarations key e
                removed := rm } k =
      if k = key then some (e.important, e.idx) else entryView s k := by
  by_cases hk : k = key
  · subst hk
    simp [entryView, hfb, alGet_set_self]
  · simp only [entryView, if_neg hk]
    by_cases hvk : isValidFallbackValue k
    · simp [hvk]
    · simp [hvk, alGet_set_ne _ key k _ (fun h => hk h.symm)]

theorem entryView_rm (s : RState) (rm : List Nat) (k : String) :
    entryView { s with removed := rm } k = entryView s k := rfl

/-- Observable effect of one valid declaration on the candidate maps and the
removed set: the candidate for its own key evolves by `viewStep`, every other
key's candidate is untouched, and the removed set grows by the loser, if any. -/
theorem declStep_valid (s : RState) (i : Nat) (d : Decl)
    (hv : isValidDecl (Node.decl d) = true) :
    (∀ k, entryView (declStep s i d) k =
      if k = d.prop then viewStep (entryView s d.prop) d.important i
      else entryView s k) ∧
    (declStep s i d).removed =
      (match entryView s d.prop with
       | Option.none => s.removed
       | some y => if y.1 then (if d.important then y.2 :: s.removed else i :: s.removed)
                   else y.2 :: s.removed) := by
  have hcond : (d.prop == "" || d.value == "") = false := by
    have : (!(d.prop == "") && !(d.value == "")) = true := hv
    simp only [Bool.and_eq_true, Bool.not_eq_true'] at this
    simp [this.1, this.2]
  by_cases hfb : isValidFallbackValue d.prop
  · have hview : entryView s d.prop
        = (alGet s.fallbackRuleDeclarations d.prop).map (fun e => (e.important, e.idx)) := by
      simp [entryView, hfb]
    cases halGet : alGet s.fallbackRuleDeclarations d.prop with
    | none =>
      have hstep : declStep s i d =
          { s with
            fallbackRuleDeclarations := alSet s.fallbackRuleDeclarations d.prop ⟨d.important, i⟩
            removed := s.removed } := by
        simp [declStep, hcond, hfb, halGet]
      rw [hstep]
      refine ⟨fun k => ?_, ?_⟩
      · rw [entryView_update_fb s d.prop _ _ hfb k]
        by_cases hk : k = d.prop <;> simp [hk, hview, halGet, viewStep]
      · simp [hview, halGet]
    | some e =>
      by_cases he : e.important = true
      · by_cases hi : d.important = true
        · have hstep : declStep s i d =
              { s with
                fallbackRuleDeclarations := alSet s.fallbackRuleDeclarations d.prop ⟨d.important, i⟩
                removed := e.idx :: s.removed } := by
            simp [declStep, hcond, hfb, halGet, he, hi]
          rw [hstep]
          refine ⟨fun k => ?_, ?_⟩
          · rw [entryView_update_fb s d.prop _ _ hfb k]
            by_cases hk : k = d.prop <;> simp [hk, hview, halGet, viewStep, he, hi]
          · simp [hview, halGet, he, hi]
        · have hstep : declStep s i d = { s with removed := i :: s.removed } := by
            simp [declStep, hcond, hfb, halGet, he, hi]
          rw [hstep]
          refine ⟨fun k => ?_, ?_⟩
          · rw [entryView_rm]
            by_cases hk : k = d.prop <;> simp [hk, hview, halGet, viewStep, he, hi]
          · simp [hview, halGet, he, hi]
      · have hstep : declStep s i d =
            { s with
              fallbackRuleDeclarations := alSet s.fallbackRuleDeclarations d.prop ⟨d.important, i⟩
              removed := e.idx :: s.removed } := by
          simp [declStep, hcond, hfb, halGet, he]
        rw [hstep]
        refine ⟨fun k => ?_, ?_⟩
        · rw [entryView_update_fb s d.prop _ _ hfb k]
          by_cases hk : k = d.prop <;> simp [hk, hview, halGet, viewStep, he]
        · simp [hview, halGet, he]
  · have hfb' : isValidFallbackValue d.prop = false := by simpa using hfb
    have hview : entryView s d.prop
        = (alGet s.ruleDeclarations d.prop).map (fun e => (e.important, e.idx)) := by
      simp [entryView, hfb']
    cases halGet : alGet s.ruleDeclarations d.prop with
    | none =>
      have hstep : declStep s i d =
          { s with
            ruleDeclarations := alSet s.ruleDeclarations d.prop ⟨strTrim d.value, d.important, i⟩
            removed := s.removed } := by
        simp [declStep, hcond, hfb', halGet]
      rw [hstep]
      refine ⟨fun k => ?_, ?_⟩
      · rw [entryView_update_std s d.prop _ _ hfb' k]
        by_cases hk : k = d.prop <;> simp [hk, hview, halGet, viewStep]
      · simp [hview, halGet]
    | some e =>
      by_cases he : e.important = true
      · by_cases hi : d.important = true
        · have hstep : declStep s i d =
              { s with
                ruleDeclarations := alSet s.ruleDeclarations d.prop ⟨strTrim d.value, d.important, i⟩
                removed := e.idx :: s.removed } := by
            simp [declStep, hcond, hfb', halGet, he, hi]
          rw [hstep]
          refine ⟨fun k => ?_, ?_⟩
          · rw [entryView_update_std s d.prop _ _ hfb' k]
            by_cases hk : k = d.prop <;> simp [hk, hview, halGet, viewStep, he, hi]
          · simp [hview, halGet, he, hi]
        · have hstep : declStep s i d = { s with removed := i :: s.removed } := by
            simp [declStep, hcond, hfb', halGet, he, hi]
          rw [hstep]
          refine ⟨fun k => ?_, ?_⟩
          · rw [entryView_rm]
            by_cases hk : k = d.prop <;> simp [hk, hview, halGet, viewStep, he, hi]
          · simp [hview, halGet, he, hi]
      · have hstep : declStep s i d =
            { s with
              ruleDeclarations := alSet s.ruleDeclarations d.prop ⟨strTrim d.value, d.important, i⟩
              removed := e.idx :: s.removed } := by
          simp [declStep, hcond, hfb', halGet, he]
        rw [hstep]
        refine ⟨fun k => ?_, ?_⟩
        · rw [entryView_update_std s d.prop _ _ hfb' k]
          by_cases hk : k = d.prop <;> simp [hk, hview, halGet, viewStep, he]
        · simp [hview, halGet, he]

theorem fst_nodup_eq {l : List (Nat × Node)} (h : (l.map Prod.fst).Nodup)
    {i : Nat} {a b : Node} (ha : (i, a) ∈ l) (hb : (i, b) ∈ l) : a = b := by
  induction l with
  | nil => cases ha
  | cons p t ih =>
    simp only [List.map_cons, List.nodup_cons] at h
    rcases List.mem_cons.mp ha with h1 | h1 <;> rcases List.mem_cons.mp hb with h2 | h2
    · have : (i, a) = (i, b) := h1.trans h2.symm
      exact (Prod.mk.injEq _ _ _ _ ▸ congrArg id this : (i = i ∧ a = b)).2
    · exfalso
      apply h.1
      have : p.1 = i := by rw [← h1]
      rw [this]
      exact List.mem_map.mpr ⟨(i, b), h2, rfl⟩
    · exfalso
      apply h.1
      have : p.1 = i := by rw [← h2]
      rw [this]
      exact List.mem_map.mpr ⟨(i, a), h1, rfl⟩
    · exact ih h.2 h1 h2

theorem mem_keyItems {k : String} {ps : List (Nat × Node)} {j : Nat} {d : Decl} :
    (j, d) ∈ keyItems k ps ↔
      (j, Node.decl d) ∈ ps ∧ isValidDecl (Node.decl d) = true ∧ d.prop = k := by
  simp only [keyItems, List.mem_filterMap]
  constructor
  · rintro ⟨⟨i, n⟩, hmem, hkey⟩
    cases n with
    | comment t => simp [keyItem] at hkey
    | decl d0 =>
      simp only [keyItem] at hkey
      by_cases hc : ((!(d0.prop == "") && !(d0.value == "")) && d0.prop == k) = true
      · rw [if_pos hc] at hkey
        have hij : i = j ∧ d0 = d := by
          have := Option.some.inj hkey
          exact ⟨congrArg Prod.fst this, congrArg Prod.snd this⟩
        obtain ⟨hi, hd⟩ := hij
        subst hi; subst hd
        simp only [Bool.and_eq_true, beq_iff_eq] at hc
        refine ⟨hmem, ?_, hc.2⟩
        show (!(d0.prop == "") && !(d0.value == "")) = true
        simp [hc.1.1, hc.1.2]
      · rw [if_neg hc] at hkey
        cases hkey
  · rintro ⟨hmem, hv, hk⟩
    refine ⟨(j, Node.decl d), hmem, ?_⟩
    simp only [keyItem]
    have hcond : ((!(d.prop == "") && !(d.value == "")) && d.prop == k) = true := by
      have hv' : (!(d.prop == "") && !(d.value == "")) = true := hv
      rw [hv', Bool.true_and]
      simpa using hk
    rw [if_pos hcond]

theorem keyItems_append (k : String) (ps qs : List (Nat × Node)) :
    keyItems k (ps ++ qs) = keyItems k ps ++ keyItems k qs := by
  simp [keyItems, List.filterMap_append]

theorem keyItems_snoc_comment (k : String) (ps : List (Nat × Node)) (i : Nat) (t : String) :
    keyItems k (ps ++ [(i, Node.comment t)]) = keyItems k ps := by
  simp [keyItems_append, keyItems, keyItem]

theorem keyItems_snoc_invalid (k : String) (ps : List (Nat × Node)) (i : Nat) (d : Decl)
    (h : isValidDecl (Node.decl d) = false) :
    keyItems k (ps ++ [(i, Node.decl d)]) = keyItems k ps := by
  have h' : (!(d.prop == "") && !(d.value == "")) = false := h
  simp [keyItems_append, keyItems, keyItem, h']

theorem keyItems_snoc_valid_ne (k : String) (ps : List (Nat × Node)) (i : Nat) (d : Decl)
    (hk : ¬ d.prop = k) :
    keyItems k (ps ++ [(i, Node.decl d)]) = keyItems k ps := by
  have h' : (d.prop == k) = false := by simpa using hk
  simp [keyItems_append, keyItems, keyItem, h']

theorem keyItems_snoc_valid_self (ps : List (Nat × Node)) (i : Nat) (d : Decl)
    (hv : isValidDecl (Node.decl d) = true) :
    keyItems d.prop (ps ++ [(i, Node.decl d)]) = keyItems d.prop ps ++ [(i, d)] := by
  have hv' : (!(d.prop == "") && !(d.value == "")) = true := hv
  simp [keyItems_append, keyItems, keyItem, hv']

/-- The coupling invariant of the resolution pass: after processing the
indexed nodes `ps`, (1) each key's recorded candidate is the fold of that
key's items, (2) a processed well-formed declaration has been removed exactly
when it is not the current candidate of its key, and (3) only processed
well-formed declarations are ever removed. -/
def Inv (ps : List (Nat × Node)) (s : RState) : Prop :=
  (∀ k, entryView s k = view (candOf (keyItems k ps))) ∧
  (∀ i d, (i, Node.decl d) ∈ ps → isValidDecl (Node.decl d) = true →
     (i ∈ s.removed ↔ ¬ (candOf (keyItems d.prop ps)).map Prod.fst = some i)) ∧
  (∀ i, i ∈ s.removed → ∃ d, (i, Node.decl d) ∈ ps ∧ isValidDecl (Node.decl d) = true)

/-- One step of the pass preserves the invariant, provided the new node's
index is fresh. -/
theorem inv_step {ps : List (Nat × Node)} {s : RState} (p : Nat × Node)
    (hInv : Inv ps s) (hnd : (ps.map Prod.fst).Nodup) (hfresh : p.1 ∉ ps.map Prod.fst) :
    Inv (ps ++ [p]) (nodeStep s p) := by
  obtain ⟨ha, hb, hc⟩ := hInv
  obtain ⟨i, n⟩ := p
  have hni : i ∉ s.removed := by
    intro hmem2
    obtain ⟨d0, hd0, _⟩ := hc i hmem2
    exact hfresh (List.mem_map.mpr ⟨(i, Node.decl d0), hd0, rfl⟩)
  cases n with
  | comment t =>
    have hstep : nodeStep s (i, Node.comment t) = s := rfl
    rw [hstep]
    refine ⟨?_, ?_, ?_⟩
    · intro k
      rw [keyItems_snoc_comment]
      exact ha k
    · intro j d hmem hv
      rcases List.mem_append.mp hmem with h1 | h1
      · rw [keyItems_snoc_comment]
        exact hb j d h1 hv
      · simp at h1
    · intro j hj
      obtain ⟨d, hd1, hd2⟩ := hc j hj
      exact ⟨d, List.mem_append_left _ hd1, hd2⟩
  | decl d =>
    have hstepeq : nodeStep s (i, Node.decl d) = declStep s i d := rfl
    rw [hstepeq]
    by_cases hv : isValidDecl (Node.decl d) = true
    case neg =>
      have hv' : isValidDecl (Node.decl d) = false := by simpa using hv
      have h2 : (d.prop == "" || d.value == "") = true := by
        by_contra hcontra
        have h3 : (d.prop == "" || d.value == "") = false := by simpa using hcontra
        rcases Bool.or_eq_false_iff.mp h3 with ⟨hp, hval⟩
        apply hv
        show (!(d.prop == "") && !(d.value == "")) = true
        simp [hp, hval]
      rw [declStep_invalid s i d h2]
      refine ⟨?_, ?_, ?_⟩
      · intro k
        rw [keyItems_snoc_invalid k ps i d hv']
        exact ha k
      · intro j d' hmem hv2
        rcases List.mem_append.mp hmem with h1 | h1
        · rw [keyItems_snoc_invalid _ ps i d hv']
          exact hb j d' h1 hv2
        · exfalso
          have : j = i ∧ d' = d := by
            have h4 := List.mem_singleton.mp h1
            exact ⟨congrArg Prod.fst h4,
              Node.decl.inj (congrArg Prod.snd h4)⟩
          obtain ⟨_, hd⟩ := this
          rw [hd] at hv2
          rw [hv2] at hv'
          cases hv'
      · intro j hj
        obtain ⟨d0, hd1, hd2⟩ := hc j hj
        exact ⟨d0, List.mem_append_left _ hd1, hd2⟩
    case pos =>
      obtain ⟨hL1, hL2⟩ := declStep_valid s i d hv
      cases hcand : candOf (keyItems d.prop ps) with
      | none =>
        have hitemsnil : keyItems d.prop ps = [] := candOf_eq_none hcand
        have hEview : entryView s d.prop = Option.none := by
          rw [ha d.prop, hcand]; rfl
        have hremoved : (declStep s i d).removed = s.removed := by
          rw [hL2, hEview]
        have hcand' : candOf (keyItems d.prop (ps ++ [(i, Node.decl d)])) = some (i, d) := by
          rw [keyItems_snoc_valid_self ps i d hv, hitemsnil]
          rfl
        refine ⟨?_, ?_, ?_⟩
        · intro k
          rw [hL1 k]
          by_cases hk : k = d.prop
          · subst hk
            rw [if_pos rfl, hEview, hcand']
            rfl
          · rw [if_neg hk, keyItems_snoc_valid_ne k ps i d (fun h => hk h.symm)]
            exact ha k
        · intro j d' hmem hv2
          rw [hremoved]
          rcases List.mem_append.mp hmem with h1 | h1
          · by_cases hkk : d'.prop = d.prop
            · exfalso
              have : (j, d') ∈ keyItems d.prop ps :=
                mem_keyItems.mpr ⟨h1, hv2, hkk⟩
              rw [hitemsnil] at this
              cases this
            · rw [keyItems_snoc_valid_ne d'.prop ps i d (fun h => hkk h.symm)]
              exact hb j d' h1 hv2
          · have heq : j = i ∧ d' = d := by
              have h4 := List.mem_singleton.mp h1
              exact ⟨congrArg Prod.fst h4, Node.decl.inj (congrArg Prod.snd h4)⟩
            obtain ⟨hj, hd⟩ := heq
            subst hj; subst hd
            rw [hcand']
            constructor
            · intro h; exact absurd h hni
            · intro h; exact absurd rfl h
        · intro j hj
          rw [hremoved] at hj
          obtain ⟨d0, hd1, hd2⟩ := hc j hj
          exact ⟨d0, List.mem_append_left _ hd1, hd2⟩
      | some y =>
        have hymem : (y.1, Node.decl y.2) ∈ ps ∧ isValidDecl (Node.decl y.2) = true
            ∧ y.2.prop = d.prop := by
          have hmem0 := candOf_mem hcand
          exact mem_keyItems.mp (by simpa using hmem0)
        have hyne : ¬ y.1 = i :=
          fun h => hfresh (h ▸ List.mem_map.mpr ⟨(y.1, Node.decl y.2), hymem.1, rfl⟩)
        have hEview : entryView s d.prop = some (y.2.important, y.1) := by
          rw [ha d.prop, hcand]; rfl
        have hitems' : keyItems d.prop (ps ++ [(i, Node.decl d)])
            = keyItems d.prop ps ++ [(i, d)] := keyItems_snoc_valid_self ps i d hv
        -- shared finishers for the two possible outcomes of the step
        have finishA : (declStep s i d).removed = y.1 :: s.removed →
            viewStep (entryView s d.prop) d.important i = some (d.important, i) →
            candStep (some y) (i, d) = some (i, d) →
            Inv (ps ++ [(i, Node.decl d)]) (declStep s i d) := by
          intro hremoved hvs hcs
          have hcand' : candOf (keyItems d.prop (ps ++ [(i, Node.decl d)])) = some (i, d) := by
            rw [hitems', candOf_append, hcand, hcs]
          refine ⟨?_, ?_, ?_⟩
          · intro k
            rw [hL1 k]
            by_cases hk : k = d.prop
            · subst hk
              rw [if_pos rfl, hvs, hcand']
              rfl
            · rw [if_neg hk, keyItems_snoc_valid_ne k ps i d (fun h => hk h.symm)]
              exact ha k
          · intro j d' hmem hv2
            rw [hremoved]
            rcases List.mem_append.mp hmem with h1 | h1
            · have hjne : ¬ j = i :=
                fun h => hfresh (h ▸ List.mem_map.mpr ⟨(j, Node.decl d'), h1, rfl⟩)
              by_cases hkk : d'.prop = d.prop
              · rw [hkk, hcand']
                have hRHS : ¬ (some (i, d)).map Prod.fst = some j := by
                  intro h8
                  exact hjne (Option.some.inj h8).symm
                refine iff_of_true ?_ hRHS
                by_cases hjy : j = y.1
                · exact List.mem_cons.mpr (Or.inl hjy)
                · have hold := hb j d' h1 hv2
                  rw [hkk, hcand] at hold
                  refine List.mem_cons.mpr (Or.inr (hold.mpr ?_))
                  intro h9
                  exact hjy (Option.some.inj h9).symm
              · rw [keyItems_snoc_valid_ne d'.prop ps i d (fun h => hkk h.symm)]
                have hjy : ¬ j = y.1 := by
                  intro h9
                  have : Node.decl d' = Node.decl y.2 :=
                    fst_nodup_eq hnd (h9 ▸ h1) hymem.1
                  exact hkk ((Node.decl.inj this ▸ hymem.2.2 : d'.prop = d.prop))
                rw [List.mem_cons]
                constructor
                · intro h10
                  rcases h10 with h10 | h10
                  · exact absurd h10 hjy
                  · exact (hb j d' h1 hv2).mp h10
                · intro h10
                  exact Or.inr ((hb j d' h1 hv2).mpr h10)
            · have heq : j = i ∧ d' = d := by
                have h4 := List.mem_singleton.mp h1
                exact ⟨congrArg Prod.fst h4, Node.decl.inj (congrArg Prod.snd h4)⟩
              obtain ⟨hj, hd⟩ := heq
              subst hj; subst hd
              rw [hcand']
              have hLHS : j ∉ y.1 :: s.removed := by
                rw [List.mem_cons]
                rintro (h10 | h10)
                · exact hyne h10.symm
                · exact hni h10
              refine iff_of_false hLHS ?_
              intro h10
              exact h10 rfl
          · intro j hj
            rw [hremoved, List.mem_cons] at hj
            rcases hj with hj | hj
            · exact ⟨y.2, List.mem_append_left _ (hj ▸ hymem.1), hymem.2.1⟩
            · obtain ⟨d0, hd1, hd2⟩ := hc j hj
              exact ⟨d0, List.mem_append_left _ hd1, hd2⟩
        have finishB : (declStep s i d).removed = i :: s.removed →
            viewStep (entryView s d.prop) d.important i = some (y.2.important, y.1) →
            candStep (some y) (i, d) = some y →
            Inv (ps ++ [(i, Node.decl d)]) (declStep s i d) := by
          intro hremoved hvs hcs
          have hcand' : candOf (keyItems d.prop (ps ++ [(i, Node.decl d)])) = some y := by
            rw [hitems', candOf_append, hcand, hcs]
          refine ⟨?_, ?_, ?_⟩
          · intro k
            rw [hL1 k]
            by_cases hk : k = d.prop
            · subst hk
              rw [if_pos rfl, hvs, hcand']
              rfl
            · rw [if_neg hk, keyItems_snoc_valid_ne k ps i d (fun h => hk h.symm)]
              exact ha k
          · intro j d' hmem hv2
            rw [hremoved]
            rcases List.mem_append.mp hmem with h1 | h1
            · have hjne : ¬ j = i :=
                fun h => hfresh (h ▸ List.mem_map.mpr ⟨(j, Node.decl d'), h1, rfl⟩)
              rw [List.mem_cons]
              have hstep2 :
                  candOf (keyItems d'.prop (ps ++ [(i, Node.decl d)]))
                    = candOf (keyItems d'.prop ps) := by
                by_cases hkk : d'.prop = d.prop
                · rw [hkk, hcand', hcand]
                · rw [keyItems_snoc_valid_ne d'.prop ps i d (fun h => hkk h.symm)]
              rw [hstep2]
              constructor
              · intro h10
                rcases h10 with h10 | h10
                · exact absurd h10 hjne
                · exact (hb j d' h1 hv2).mp h10
              · intro h10
                exact Or.inr ((hb j d' h1 hv2).mpr h10)
            · have heq : j = i ∧ d' = d := by
                have h4 := List.mem_singleton.mp h1
                exact ⟨congrArg Prod.fst h4, Node.decl.inj (congrArg Prod.snd h4)⟩
              obtain ⟨hj, hd⟩ := heq
              subst hj; subst hd
              rw [hcand']
              refine iff_of_true (List.mem_cons.mpr (Or.inl rfl)) ?_
              intro h10
              exact hyne (Option.some.inj h10)
          · intro j hj
            rw [hremoved, List.mem_cons] at hj
            rcases hj with hj | hj
            · exact ⟨d, List.mem_append_right _ (by rw [hj]; exact List.mem_singleton.mpr rfl),
                hv⟩
            · obtain ⟨d0, hd1, hd2⟩ := hc j hj
              exact ⟨d0, List.mem_append_left _ hd1, hd2⟩
        by_cases hyimp : y.2.important = true
        · by_cases hdimp : d.important = true
          · apply finishA
            · rw [hL2, hEview]
              simp [hyimp, hdimp]
            · rw [hEview]
              simp [viewStep, hyimp, hdimp]
            · simp [candStep, hyimp, hdimp]
          · apply finishB
            · rw [hL2, hEview]
              simp [hyimp, hdimp]
            · rw [hEview]
              simp [viewStep, hyimp, hdimp]
            · simp [candStep, hyimp, hdimp]
        · have hyimp' : y.2.important = false := by simpa using hyimp
          apply finishA
          · rw [hL2, hEview]
            simp [hyimp']
          · rw [hEview]
            simp [viewStep, hyimp']
          · simp [candStep, hyimp']

/-- The invariant carries through the fold over any suffix of fresh nodes. -/
theorem inv_foldl : ∀ (qs ps : List (Nat × Node)) (s : RState),
    Inv ps s → (((ps ++ qs).map Prod.fst).Nodup) →
    Inv (ps ++ qs) (qs.foldl nodeStep s)
  | [], ps, s, h, _ => by simpa using h
  | q :: qs, ps, s, h, hnd => by
    have hnd' : ((ps.map Prod.fst) ++ (q.1 :: qs.map Prod.fst)).Nodup := by
      simpa [List.map_append] using hnd
    have hsplit := List.nodup_append.mp hnd'
    have hndps : (ps.map Prod.fst).Nodup := hsplit.1
    have hfresh : q.1 ∉ ps.map Prod.fst := by
      intro hmem
      exact (hsplit.2.2 hmem) (List.mem_cons_self _ _)
    have hstep := inv_step q h hndps hfresh
    have hnd2 : (((ps ++ [q]) ++ qs).map Prod.fst).Nodup := by
      rw [List.append_assoc]
      simpa [List.map_append] using hnd
    have hrec := inv_foldl qs (ps ++ [q]) (nodeStep s q) hstep hnd2
    rw [List.append_assoc] at hrec
    simpa using hrec

theorem enum_fst_nodup (ns : List Node) : ((ns.enum).map Prod.fst).Nodup := by
  rw [List.enum_map_fst]
  exact List.nodup_range _

theorem inv_init : Inv [] initState := by
  refine ⟨?_, ?_, ?_⟩
  · intro k
    simp [entryView, initState, alGet, keyItems, candOf, view]
  · intro i d hmem
    cases hmem
  · intro i hi
    cases hi

/-- The invariant holds of the final state of the pass over a rule. -/
theorem inv_final (ns : List Node) : Inv ns.enum (finalState ns) := by
  have h := inv_foldl ns.enum [] initState inv_init (by simpa using enum_fst_nodup ns)
  simpa using h

theorem keyDecl_eq_true {k : String} {n : Node} :
    keyDecl k n = true ↔
      ∃ d, n = Node.decl d ∧ isValidDecl (Node.decl d) = true ∧ d.prop = k := by
  cases n with
  | comment t => simp [keyDecl]
  | decl d =>
    simp only [keyDecl, Bool.and_eq_true, beq_iff_eq]
    constructor
    · rintro ⟨hv, hk⟩
      exact ⟨d, rfl, by simpa [isValidDecl] using hv, hk⟩
    · rintro ⟨d', hd', hv, hk⟩
      have : d' = d := Node.decl.inj hd'.symm
      subst this
      exact ⟨by simpa [isValidDecl] using hv, hk⟩

/-- Projecting `keyItems` of an index-annotated list back to a plain filter. -/
theorem keyItems_enumFrom (k : String) :
    ∀ (ns : List Node) (n : Nat),
      (keyItems k (ns.enumFrom n)).map (fun p => Node.decl p.2) = ns.filter (keyDecl k)
  | [], n => by simp [keyItems]
  | m :: ns, n => by
    rw [show (m :: ns).enumFrom n = (n, m) :: ns.enumFrom (n + 1) from rfl]
    cases m with
    | comment t =>
      have h1 : keyItem k (n, Node.comment t) = Option.none := rfl
      rw [show keyItems k ((n, Node.comment t) :: ns.enumFrom (n + 1))
          = keyItems k (ns.enumFrom (n + 1)) from by simp [keyItems, List.filterMap_cons, h1]]
      rw [keyItems_enumFrom k ns (n + 1)]
      rw [List.filter_cons_of_neg]
      simp [keyDecl]
    | decl d =>
      by_cases hc : ((!(d.prop == "") && !(d.value == "")) && d.prop == k) = true
      · have h1 : keyItem k (n, Node.decl d) = some (n, d) := by simp [keyItem, hc]
        rw [show keyItems k ((n, Node.decl d) :: ns.enumFrom (n + 1))
            = (n, d) :: keyItems k (ns.enumFrom (n + 1)) from by
              simp [keyItems, List.filterMap_cons, h1]]
        rw [List.map_cons, keyItems_enumFrom k ns (n + 1)]
        rw [List.filter_cons_of_pos (show keyDecl k (Node.decl d) = true from hc)]
      · have hc' : ((!(d.prop == "") && !(d.value == "")) && d.prop == k) = false := by
          simpa using hc
        have h1 : keyItem k (n, Node.decl d) = Option.none := by simp [keyItem, hc']
        rw [show keyItems k ((n, Node.decl d) :: ns.enumFrom (n + 1))
            = keyItems k (ns.enumFrom (n + 1)) from by simp [keyItems, List.filterMap_cons, h1]]
        rw [keyItems_enumFrom k ns (n + 1)]
        rw [List.filter_cons_of_neg]
        simpa [keyDecl] using hc'

theorem keyItems_enum (k : String) (ns : List Node) :
    (keyItems k ns.enum).map (fun p => Node.decl p.2) = ns.filter (keyDecl k) :=
  keyItems_enumFrom k ns 0

theorem length_le_one_mem_eq {α : Type} {l : List α} (h : l.length ≤ 1) {a b : α}
    (ha : a ∈ l) (hb : b ∈ l) : a = b := by
  cases l with
  | nil => cases ha
  | cons x t =>
    cases t with
    | nil =>
      rw [List.mem_singleton] at ha hb
      rw [ha, hb]
    | cons y u => simp at h

theorem filter_eq_singleton {α : Type} [DecidableEq α] {l : List α} {x : α} {P : α → Bool}
    (hnd : l.Nodup) (hmem : x ∈ l) (hP : ∀ a ∈ l, (P a = true ↔ a = x)) :
    l.filter P = [x] := by
  induction l with
  | nil => cases hmem
  | cons h t ih =>
    rw [List.nodup_cons] at hnd
    by_cases hx : h = x
    · subst hx
      rw [List.filter_cons_of_pos ((hP h (List.mem_cons_self _ _)).mpr rfl)]
      have ht : t.filter P = [] := by
        apply List.filter_eq_nil_iff.mpr
        intro a hat hPa
        have : a = h := (hP a (List.mem_cons_of_mem _ hat)).mp hPa
        exact hnd.1 (this ▸ hat)
      rw [ht]
    · have hxt : x ∈ t := by
        rcases List.mem_cons.mp hmem with h1 | h1
        · exact absurd h1.symm hx
        · exact h1
      rw [List.filter_cons_of_neg]
      · exact ih hnd.2 hxt (fun a hat => hP a (List.mem_cons_of_mem _ hat))
      · intro hPh
        exact hx ((hP h (List.mem_cons_self _ _)).mp hPh)

/-- The central survivor characterization: among the surviving children of a
rule, the well-formed declarations for property `k` are exactly the
spec-described winner — the last `!important` one if any, else the last. -/
theorem resolve_filter_key (ns : List Node) (k : String) :
    (resolveNodes ns).filter (keyDecl k) = (specWinner ns k).toList := by
  obtain ⟨ha, hb, hc⟩ := inv_final ns
  rw [resolveNodes, List.filter_map, List.filter_filter]
  cases hcand : candOf (keyItems k ns.enum) with
  | none =>
    have hitemsnil : keyItems k ns.enum = [] := candOf_eq_none hcand
    have hfilnil : ns.filter (keyDecl k) = [] := by
      rw [← keyItems_enum, hitemsnil]
      rfl
    have hnone : ∀ p ∈ ns.enum,
        ¬ ((keyDecl k ∘ Prod.snd) p && !((finalState ns).removed.contains p.1)) = true := by
      rintro ⟨j, n⟩ hmem hcontra
      have hsplit : keyDecl k n = true ∧ !((finalState ns).removed.contains j) = true := by
        simpa using hcontra
      obtain ⟨hkd, _⟩ := hsplit
      obtain ⟨d, hn, hv, hk⟩ := keyDecl_eq_true.mp hkd
      have : (j, d) ∈ keyItems k ns.enum :=
        mem_keyItems.mpr ⟨by rw [← hn]; exact hmem, hv, hk⟩
      rw [hitemsnil] at this
      cases this
    rw [List.filter_eq_nil_iff.mpr hnone]
    simp [specWinner, hfilnil]
  | some y =>
    have hymem : (y.1, y.2) ∈ keyItems k ns.enum := by simpa using candOf_mem hcand
    obtain ⟨hymem', hyv, hyk⟩ := mem_keyItems.mp hymem
    have hynotrm : y.1 ∉ (finalState ns).removed := by
      have hiff := hb y.1 y.2 hymem' hyv
      rw [hyk, hcand] at hiff
      intro hmem2
      exact (hiff.mp hmem2) rfl
    have hfl : ns.enum.filter
        (fun p => (keyDecl k ∘ Prod.snd) p && !((finalState ns).removed.contains p.1))
        = [(y.1, Node.decl y.2)] := by
      apply filter_eq_singleton (List.Nodup.of_map Prod.fst (enum_fst_nodup ns)) hymem'
      rintro ⟨j, n⟩ hmem
      constructor
      · intro hP
        rw [Function.comp_apply, Bool.and_eq_true, Bool.not_eq_true'] at hP
        obtain ⟨hkd, hkeep⟩ := hP
        obtain ⟨d, hn, hv, hk⟩ := keyDecl_eq_true.mp hkd
        subst hn
        have hjitems : (j, d) ∈ keyItems k ns.enum := mem_keyItems.mpr ⟨hmem, hv, hk⟩
        have hjiff := hb j d hmem hv
        rw [hk, hcand] at hjiff
        have hjnotrm : j ∉ (finalState ns).removed := by
          intro hmem2
          have hc2 : (finalState ns).removed.contains j = true := List.elem_iff.mpr hmem2
          rw [hc2] at hkeep
          exact absurd hkeep (by decide)
        have hjy : y.1 = j := by
          by_contra hne
          exact hjnotrm (hjiff.mpr (fun hsome => hne (Option.some.inj hsome)))
        have : Node.decl d = Node.decl y.2 :=
          fst_nodup_eq (enum_fst_nodup ns) (hjy ▸ hmem) hymem'
        rw [← hjy, this]
      · intro hpx
        have h1 : (j, n) = (y.1, Node.decl y.2) := hpx
        have hj : j = y.1 := congrArg Prod.fst h1
        have hn : n = Node.decl y.2 := congrArg Prod.snd h1
        subst hj; subst hn
        have hkd : keyDecl k (Node.decl y.2) = true :=
          keyDecl_eq_true.mpr ⟨y.2, rfl, hyv, hyk⟩
        have hkeep : ((finalState ns).removed.contains y.1) = false := by
          by_contra hcc
          have hcc' : ((finalState ns).removed.contains y.1) = true := by simpa using hcc
          exact hynotrm (List.elem_iff.mp hcc')
        simp only [Function.comp_apply, hkd, hkeep, Bool.not_false, Bool.and_self]
    rw [hfl]
    have himp : ((fun n => Node.isImportantNode n) ∘ (fun p : Nat × Decl => Node.decl p.2))
        = fun p : Nat × Decl => p.2.important := rfl
    by_cases hem : ((keyItems k ns.enum).filter (fun p => p.2.important)).isEmpty = true
    · have hlast : (keyItems k ns.enum).getLast? = some y := by
        have := candOf_closed (keyItems k ns.enum)
        rw [hcand, if_pos hem] at this
        exact this.symm
      have himps : (ns.filter (keyDecl k)).filter Node.isImportantNode = [] := by
        rw [← keyItems_enum, List.filter_map, himp]
        rw [show (keyItems k ns.enum).filter (fun p : Nat × Decl => p.2.important) = []
            from by simpa using hem]
        rfl
      have hlastN : (ns.filter (keyDecl k)).getLast? = some (Node.decl y.2) := by
        rw [← keyItems_enum, List.getLast?_map, hlast]
        rfl
      simp only [specWinner]
      rw [himps, if_pos (show List.isEmpty ([] : List Node) = true from rfl), hlastN]
      rfl
    · have hem' : ((keyItems k ns.enum).filter (fun p => p.2.important)).isEmpty = false := by
        simpa using hem
      have hlast : ((keyItems k ns.enum).filter (fun p => p.2.important)).getLast? = some y := by
        have := candOf_closed (keyItems k ns.enum)
        rw [hcand, if_neg (by simp [hem'])] at this
        exact this.symm
      have himps : (ns.filter (keyDecl k)).filter Node.isImportantNode
          = ((keyItems k ns.enum).filter (fun p => p.2.important)).map
              (fun p => Node.decl p.2) := by
        rw [← keyItems_enum, List.filter_map, himp]
      have hlastN : ((ns.filter (keyDecl k)).filter Node.isImportantNode).getLast?
          = some (Node.decl y.2) := by
        rw [himps, List.getLast?_map, hlast]
        rfl
      have hne : ((ns.filter (keyDecl k)).filter Node.isImportantNode).isEmpty = false := by
        rw [himps]
        simpa using hem'
      simp only [specWinner]
      rw [hne, if_neg Bool.false_ne_true, hlastN]
      rfl

/-! ### Consequences of the characterization -/

theorem removed_valid {ns : List Node} {i : Nat} (h : i ∈ (finalState ns).removed) :
    ∃ d, (i, Node.decl d) ∈ ns.enum ∧ isValidDecl (Node.decl d) = true :=
  (inv_final ns).2.2 i h

theorem mem_resolveNodes {ns : List Node} {i : Nat} {n : Node}
    (hmem : (i, n) ∈ ns.enum) (hkeep : i ∉ (finalState ns).removed) :
    n ∈ resolveNodes ns := by
  rw [resolveNodes]
  apply List.mem_map.mpr
  refine ⟨(i, n), ?_, rfl⟩
  apply List.mem_filter.mpr
  refine ⟨hmem, ?_⟩
  have hcf : (finalState ns).removed.contains i = false := by
    by_contra hcc
    have hcc' : (finalState ns).removed.contains i = true := by simpa using hcc
    exact hkeep (List.elem_iff.mp hcc')
  show (!(finalState ns).removed.contains i) = true
  rw [hcf]
  rfl

theorem invalid_not_removed {ns : List Node} {i : Nat} {d : Decl}
    (hmem : (i, Node.decl d) ∈ ns.enum) (hinv : isValidDecl (Node.decl d) = false) :
    i ∉ (finalState ns).removed := by
  intro hmem2
  obtain ⟨d', hd1, hd2⟩ := removed_valid hmem2
  have heq : Node.decl d' = Node.decl d := fst_nodup_eq (enum_fst_nodup ns) hd1 hmem
  rw [heq] at hd2
  rw [hd2] at hinv
  cases hinv

/-- A rule that contains a declaration still contains one after resolution. -/
theorem exists_decl_resolve {ns : List Node} (h : ∃ d, Node.decl d ∈ ns) :
    ∃ d', Node.decl d' ∈ resolveNodes ns := by
  obtain ⟨d, hd⟩ := h
  have hidx : ∃ p ∈ ns.enum, Prod.snd p = Node.decl d := by
    apply List.mem_map.mp
    rw [List.enum_map_snd]
    exact hd
  obtain ⟨⟨i, n⟩, hmem, hsnd⟩ := hidx
  have hn : n = Node.decl d := hsnd
  subst hn
  by_cases hv : isValidDecl (Node.decl d) = true
  · have hitem : (i, d) ∈ keyItems d.prop ns.enum := mem_keyItems.mpr ⟨hmem, hv, rfl⟩
    cases hcand : candOf (keyItems d.prop ns.enum) with
    | none =>
      rw [candOf_eq_none hcand] at hitem
      cases hitem
    | some y =>
      obtain ⟨hymem', hyv, hyk⟩ := mem_keyItems.mp (by simpa using candOf_mem hcand)
      have hiff := (inv_final ns).2.1 y.1 y.2 hymem' hyv
      rw [hyk, hcand] at hiff
      have hynotrm : y.1 ∉ (finalState ns).removed := by
        intro hmem2
        exact (hiff.mp hmem2) rfl
      exact ⟨y.2, mem_resolveNodes hymem' hynotrm⟩
  · exact ⟨d, mem_resolveNodes hmem (invalid_not_removed hmem (by simpa using hv))⟩

/-- Survivors are a sublist of the input children: relative order preserved. -/
theorem resolveNodes_sublist (ns : List Node) : (resolveNodes ns).Sublist ns := by
  rw [resolveNodes]
  have h1 : (ns.enum.filter
      (fun p => !((finalState ns).removed.contains p.1))).Sublist ns.enum :=
    List.filter_sublist _
  have h2 := List.Sublist.map Prod.snd h1
  rw [List.enum_map_snd] at h2
  exact h2

/-- If every key occurs at most once among well-formed declarations, the
pass removes nothing. -/
theorem resolveNodes_eq_self {ns : List Node}
    (h : ∀ k, (ns.filter (keyDecl k)).length ≤ 1) : resolveNodes ns = ns := by
  have hnr : ∀ i, i ∉ (finalState ns).removed := by
    intro i hmem2
    obtain ⟨d, hd1, hd2⟩ := removed_valid hmem2
    have hitem : (i, d) ∈ keyItems d.prop ns.enum := mem_keyItems.mpr ⟨hd1, hd2, rfl⟩
    have hiff := (inv_final ns).2.1 i d hd1 hd2
    cases hcand : candOf (keyItems d.prop ns.enum) with
    | none =>
      rw [candOf_eq_none hcand] at hitem
      cases hitem
    | some y =>
      rw [hcand] at hiff
      have hyne : ¬ some y.1 = some i := hiff.mp hmem2
      have hlen : (keyItems d.prop ns.enum).length ≤ 1 := by
        have hh := h d.prop
        rw [← keyItems_enum, List.length_map] at hh
        exact hh
      have hyi : (y.1, y.2) ∈ keyItems d.prop ns.enum := by simpa using candOf_mem hcand
      have : (y.1, y.2) = (i, d) := length_le_one_mem_eq hlen hyi hitem
      exact hyne (by rw [congrArg Prod.fst this])
  rw [resolveNodes]
  have hfil : ns.enum.filter (fun p => !((finalState ns).removed.contains p.1)) = ns.enum := by
    apply List.filter_eq_self.mpr
    intro p _
    have hcf : (finalState ns).removed.contains p.1 = false := by
      by_contra hcc
      have hcc' : (finalState ns).removed.contains p.1 = true := by simpa using hcc
      exact hnr p.1 (List.elem_iff.mp hcc')
    show (!(finalState ns).removed.contains p.1) = true
    rw [hcf]
    rfl
  rw [hfil, List.enum_map_snd]

theorem resolve_key_le_one (ns : List Node) (k : String) :
    ((resolveNodes ns).filter (keyDecl k)).length ≤ 1 := by
  rw [resolve_filter_key]
  cases specWinner ns k <;> simp

theorem resolveNodes_idem (ns : List Node) :
    resolveNodes (resolveNodes ns) = resolveNodes ns :=
  resolveNodes_eq_self (fun k => resolve_key_le_one ns k)

theorem isEmpty_eq_false {r : Rule} :
    isEmpty r = false ↔ ∃ d, Node.decl d ∈ r.nodes := by
  rw [isEmpty, Bool.or_eq_false_iff]
  constructor
  · rintro ⟨_, h2⟩
    have hne : (r.nodes.filter (fun v => !v.isComment)) ≠ [] := by
      intro hh
      rw [hh] at h2
      simp at h2
    obtain ⟨n, hn⟩ := List.exists_mem_of_ne_nil _ hne
    have hmemf := List.mem_filter.mp hn
    cases n with
    | decl d => exact ⟨d, hmemf.1⟩
    | comment t => simp [Node.isComment] at hmemf
  · rintro ⟨d, hd⟩
    have hmemf : Node.decl d ∈ r.nodes.filter (fun v => !v.isComment) :=
      List.mem_filter.mpr ⟨hd, by simp [Node.isComment]⟩
    constructor
    · rw [beq_eq_false_iff_ne]
      intro h0
      exact (List.ne_nil_of_mem hd) (List.length_eq_zero.mp h0)
    · rw [beq_eq_false_iff_ne]
      intro h0
      exact (List.ne_nil_of_mem hmemf) (List.length_eq_zero.mp h0)

theorem isEmpty_eq_true {r : Rule} :
    isEmpty r = true ↔ (r.nodes.filter (fun v => !v.isComment)).length = 0 := by
  rw [isEmpty, Bool.or_eq_true]
  constructor
  · rintro (h | h)
    · have : r.nodes = [] := by simpa using h
      rw [this]
      rfl
    · simpa using h
  · intro h
    right
    simpa using h

theorem processRule_resolved {cfg : Config} {r : Rule}
    (hgate : (cfg.selector.truthy && !matchSelector cfg.selector r.selector) = false)
    (hne : isEmpty r = false) :
    processRule cfg r = some { r with nodes := resolveNodes r.nodes } := by
  simp [processRule, hgate, hne]

theorem processRule_idem {cfg : Config} {r r' : Rule}
    (h : processRule cfg r = some r') : processRule cfg r' = some r' := by
  by_cases hgate : (cfg.selector.truthy && !matchSelector cfg.selector r.selector) = true
  · have hr : r' = r := by
      have := h
      simp only [processRule, hgate, if_pos] at this
      exact (Option.some.inj (by simpa using this)).symm
    subst hr
    simp [processRule, hgate]
  · have hgate' : (cfg.selector.truthy && !matchSelector cfg.selector r.selector) = false := by
      simpa using hgate
    by_cases hemp : isEmpty r = true
    · by_cases hpe : cfg.preserveEmpty = true
      · have hr : r' = r := by
          have := h
          simp only [processRule, hgate', hemp, hpe] at this
          simpa using (Option.some.inj (by simpa using this)).symm
        subst hr
        simp [processRule, hgate', hemp, hpe]
      · exfalso
        have hpe' : cfg.preserveEmpty = false := by simpa using hpe
        simp [processRule, hgate', hemp, hpe'] at h
    · have hemp' : isEmpty r = false := by simpa using hemp
      have hr : r' = { r with nodes := resolveNodes r.nodes } := by
        rw [processRule_resolved hgate' hemp'] at h
        exact (Option.some.inj h).symm
      subst hr
      have hgate2 : (cfg.selector.truthy &&
          !matchSelector cfg.selector
            ({ r with nodes := resolveNodes r.nodes } : Rule).selector) = false := hgate'
      have hne2 : isEmpty { r with nodes := resolveNodes r.nodes } = false := by
        apply isEmpty_eq_false.mpr
        exact exists_decl_resolve (isEmpty_eq_false.mp hemp')
      rw [processRule_resolved hgate2 hne2]
      show some ({ r with nodes := resolveNodes (resolveNodes r.nodes) } : Rule) = _
      rw [resolveNodes_idem]

theorem filterMap_idem {α : Type} (g : α → Option α) (l : List α)
    (hg : ∀ a b, g a = some b → g b = some b) :
    (l.filterMap g).filterMap g = l.filterMap g := by
  induction l with
  | nil => rfl
  | cons a t ih =>
    cases hga : g a with
    | none => simp [List.filterMap_cons, hga, ih]
    | some b => simp [List.filterMap_cons, hga, hg a b hga, ih]

theorem processRootNode_idem {cfg : Config} {a b : RootNode}
    (h : processRootNode cfg a = some b) : processRootNode cfg b = some b := by
  cases a with
  | comment t =>
    have hb : b = RootNode.comment t := by
      have h' : some (RootNode.comment t) = some b := h
      exact (Option.some.inj h').symm
    subst hb
    rfl
  | rule r =>
    cases hp : processRule cfg r with
    | none =>
      exfalso
      rw [show processRootNode cfg (RootNode.rule r) = (processRule cfg r).map RootNode.rule
          from rfl, hp] at h
      cases h
    | some r' =>
      have hb : b = RootNode.rule r' := by
        rw [show processRootNode cfg (RootNode.rule r) = (processRule cfg r).map RootNode.rule
            from rfl, hp] at h
        exact (Option.some.inj h).symm
      subst hb
      rw [show processRootNode cfg (RootNode.rule r') = (processRule cfg r').map RootNode.rule
          from rfl, processRule_idem hp]
      rfl
  | atRule p rs =>
    have hb : b = RootNode.atRule p (rs.filterMap (processRule cfg)) := by
      have h' : some (RootNode.atRule p (rs.filterMap (processRule cfg))) = some b := h
      exact (Option.some.inj h').symm
    subst hb
    show some (RootNode.atRule p ((rs.filterMap (processRule cfg)).filterMap
      (processRule cfg))) = _
    rw [filterMap_idem _ _ (fun x y hxy => processRule_idem hxy)]

/-- Running the transform a second time changes nothing. -/
theorem transformRoot_idem (cfg : Config) (root : List RootNode) :
    transformRoot cfg (transformRoot cfg root) = transformRoot cfg root :=
  filterMap_idem _ _ (fun _ _ hab => processRootNode_idem hab)

/-! ### Value-independence layer: two trees that differ only in declaration
values (all nonempty) drive the pass through identical decisions. -/

/-- Same property and importance; both values nonempty but otherwise free. -/
def declShape (d d' : Decl) : Prop :=
  d.prop = d'.prop ∧ d.important = d'.important ∧ ¬ d.value = "" ∧ ¬ d'.value = ""

/-- Node-level shape equality: identical except for declaration values. -/
def nodeShape : Node → Node → Prop
  | .decl d, .decl d' => declShape d d'
  | .comment t, .comment t' => t = t'
  | _, _ => False

/-- Entries of `ruleDeclarations` that agree except for the stored value. -/
def stdShape (p q : String × StdEntry) : Prop :=
  p.1 = q.1 ∧ p.2.important = q.2.important ∧ p.2.idx = q.2.idx

/-- The observable coupling between the two states. -/
def stateShape (s s' : RState) : Prop :=
  List.Forall₂ stdShape s.ruleDeclarations s'.ruleDeclarations ∧
  s.fallbackRuleDeclarations = s'.fallbackRuleDeclarations ∧
  s.removed = s'.removed

theorem alGet_cons (a : String) (v : α) (m : List (String × α)) (k : String) :
    alGet ((a, v) :: m) k = if (a == k) = true then some v else alGet m k := by
  by_cases h : (a == k) = true
  · simp [alGet, List.find?, h]
  · have h' : (a == k) = false := by simpa using h
    simp [alGet, List.find?, h']

theorem alGet_stdShape {m m' : List (String × StdEntry)}
    (h : List.Forall₂ stdShape m m') (k : String) :
    (alGet m k = Option.none ∧ alGet m' k = Option.none) ∨
    (∃ e e', alGet m k = some e ∧ alGet m' k = some e' ∧
      e.important = e'.important ∧ e.idx = e'.idx) := by
  induction h with
  | nil => exact Or.inl ⟨rfl, rfl⟩
  | @cons p q t t' hpq hrest ih =>
    obtain ⟨hk, himp, hidx⟩ := hpq
    obtain ⟨a, v⟩ := p
    obtain ⟨a', v'⟩ := q
    have ha : a = a' := hk
    subst ha
    rw [alGet_cons, alGet_cons]
    by_cases hke : (a == k) = true
    · rw [if_pos hke, if_pos hke]
      exact Or.inr ⟨v, v', rfl, rfl, himp, hidx⟩
    · rw [if_neg hke, if_neg hke]
      exact ih

theorem declStep_shape {s s' : RState} (h : stateShape s s') {d d' : Decl}
    (hd : declShape d d') (i : Nat) :
    stateShape (declStep s i d) (declStep s' i d') := by
  obtain ⟨hstd, hfb, hrm⟩ := h
  obtain ⟨hprop, himp, hv1, hv2⟩ := hd
  by_cases hp0 : d.prop = ""
  · have c1 : (d.prop == "" || d.value == "") = true := by simp [hp0]
    have c2 : (d'.prop == "" || d'.value == "") = true := by
      rw [← hprop]
      simp [hp0]
    rw [declStep_invalid _ _ _ c1, declStep_invalid _ _ _ c2]
    exact ⟨hstd, hfb, hrm⟩
  · have c1 : (d.prop == "" || d.value == "") = false := by simp [hp0, hv1]
    have c2 : (d'.prop == "" || d'.value == "") = false := by
      rw [← hprop]
      simp [hp0, hv2]
    by_cases hfbk : isValidFallbackValue d.prop = true
    · have hfbk' : isValidFallbackValue d'.prop = true := by rw [← hprop]; exact hfbk
      cases halGet : alGet s.fallbackRuleDeclarations d.prop with
      | none =>
        have halGet' : alGet s'.fallbackRuleDeclarations d'.prop = Option.none := by
          rw [← hfb, ← hprop]
          exact halGet
        have h1 : declStep s i d = { s with
            fallbackRuleDeclarations :=
              alSet s.fallbackRuleDeclarations d.prop ⟨d.important, i⟩ } := by
          simp [declStep, c1, hfbk, halGet]
        have h2 : declStep s' i d' = { s' with
            fallbackRuleDeclarations :=
              alSet s'.fallbackRuleDeclarations d'.prop ⟨d'.important, i⟩ } := by
          simp [declStep, c2, hfbk', halGet']
        rw [h1, h2]
        refine ⟨hstd, ?_, hrm⟩
        show alSet _ _ _ = alSet _ _ _
        rw [hfb, hprop, himp]
      | some e =>
        have halGet' : alGet s'.fallbackRuleDeclarations d'.prop = some e := by
          rw [← hfb, ← hprop]
          exact halGet
        by_cases he : e.important = true
        · by_cases hi : d.important = true
          · have hi' : d'.important = true := by rw [← himp]; exact hi
            have h1 : declStep s i d = { s with
                removed := e.idx :: s.removed
                fallbackRuleDeclarations :=
                  alSet s.fallbackRuleDeclarations d.prop ⟨d.important, i⟩ } := by
              simp [declStep, c1, hfbk, halGet, he, hi]
            have h2 : declStep s' i d' = { s' with
                removed := e.idx :: s'.removed
                fallbackRuleDeclarations :=
                  alSet s'.fallbackRuleDeclarations d'.prop ⟨d'.important, i⟩ } := by
              simp [declStep, c2, hfbk', halGet', he, hi']
            rw [h1, h2]
            refine ⟨hstd, ?_, by rw [hrm]⟩
            show alSet _ _ _ = alSet _ _ _
            rw [hfb, hprop, himp]
          · have hi' : d'.important = false := by rw [← himp]; simpa using hi
            have h1 : declStep s i d = { s with removed := i :: s.removed } := by
              simp [declStep, c1, hfbk, halGet, he, hi]
            have h2 : declStep s' i d' = { s' with removed := i :: s'.removed } := by
              simp [declStep, c2, hfbk', halGet', he, hi']
            rw [h1, h2]
            exact ⟨hstd, hfb, by rw [hrm]⟩
        · have h1 : declStep s i d = { s with
              removed := e.idx :: s.removed
              fallbackRuleDeclarations :=
                alSet s.fallbackRuleDeclarations d.prop ⟨d.important, i⟩ } := by
            simp [declStep, c1, hfbk, halGet, he]
          have h2 : declStep s' i d' = { s' with
              removed := e.idx :: s'.removed
              fallbackRuleDeclarations :=
                alSet s'.fallbackRuleDeclarations d'.prop ⟨d'.important, i⟩ } := by
            simp [declStep, c2, hfbk', halGet', he]
          rw [h1, h2]
          refine ⟨hstd, ?_, by rw [hrm]⟩
          show alSet _ _ _ = alSet _ _ _
          rw [hfb, hprop, himp]
    · have hfbk0 : isValidFallbackValue d.prop = false := by simpa using hfbk
      have hfbk0' : isValidFallbackValue d'.prop = false := by rw [← hprop]; exact hfbk0
      rcases alGet_stdShape hstd d.prop with ⟨hn, hn'⟩ | ⟨e, e', he1, he2, heimp, heidx⟩
      · have hn2 : alGet s'.ruleDeclarations d'.prop = Option.none := by
          rw [← hprop]
          exact hn'
        have h1 : declStep s i d = { s with
            ruleDeclarations :=
              alSet s.ruleDeclarations d.prop ⟨strTrim d.value, d.important, i⟩ } := by
          simp [declStep, c1, hfbk0, hn]
        have h2 : declStep s' i d' = { s' with
            ruleDeclarations :=
              alSet s'.ruleDeclarations d'.prop ⟨strTrim d'.value, d'.important, i⟩ } := by
          simp [declStep, c2, hfbk0', hn2]
        rw [h1, h2]
        refine ⟨?_, hfb, hrm⟩
        exact List.Forall₂.cons ⟨hprop, by simpa using himp, rfl⟩ hstd
      · have he2' : alGet s'.ruleDeclarations d'.prop = some e' := by
          rw [← hprop]
          exact he2
        by_cases he : e.important = true
        · have heB : e'.important = true := by rw [← heimp]; exact he
          by_cases hi : d.important = true
          · have hi' : d'.important = true := by rw [← himp]; exact hi
            have h1 : declStep s i d = { s with
                removed := e.idx :: s.removed
                ruleDeclarations :=
                  alSet s.ruleDeclarations d.prop ⟨strTrim d.value, d.important, i⟩ } := by
              simp [declStep, c1, hfbk0, he1, he, hi]
            have h2 : declStep s' i d' = { s' with
                removed := e'.idx :: s'.removed
                ruleDeclarations :=
                  alSet s'.ruleDeclarations d'.prop ⟨strTrim d'.value, d'.important, i⟩ } := by
              simp [declStep, c2, hfbk0', he2', heB, hi']
            rw [h1, h2]
            refine ⟨?_, hfb, by rw [hrm, heidx]⟩
            exact List.Forall₂.cons ⟨hprop, by simpa using himp, rfl⟩ hstd
          · have hi' : d'.important = false := by rw [← himp]; simpa using hi
            have h1 : declStep s i d = { s with removed := i :: s.removed } := by
              simp [declStep, c1, hfbk0, he1, he, hi]
            have h2 : declStep s' i d' = { s' with removed := i :: s'.removed } := by
              simp [declStep, c2, hfbk0', he2', heB, hi']
            rw [h1, h2]
            exact ⟨hstd, hfb, by rw [hrm]⟩
        · have heB : e'.important = false := by rw [← heimp]; simpa using he
          have h1 : declStep s i d = { s with
              removed := e.idx :: s.removed
              ruleDeclarations :=
                alSet s.ruleDeclarations d.prop ⟨strTrim d.value, d.important, i⟩ } := by
            simp [declStep, c1, hfbk0, he1, he]
          have h2 : declStep s' i d' = { s' with
              removed := e'.idx :: s'.removed
              ruleDeclarations :=
                alSet s'.ruleDeclarations d'.prop ⟨strTrim d'.value, d'.important, i⟩ } := by
            simp [declStep, c2, hfbk0', he2', heB]
          rw [h1, h2]
          refine ⟨?_, hfb, by rw [hrm, heidx]⟩
          exact List.Forall₂.cons ⟨hprop, by simpa using himp, rfl⟩ hstd

/-- Indexed pair shape: equal indices, shape-equal nodes. -/
def pairShape (p q : Nat × Node) : Prop :=
  p.1 = q.1 ∧ nodeShape p.2 q.2

theorem foldl_shape {ps ps' : List (Nat × Node)}
    (hps : List.Forall₂ pairShape ps ps') :
    ∀ {s s' : RState}, stateShape s s' →
      stateShape (ps.foldl nodeStep s) (ps'.foldl nodeStep s') := by
  induction hps with
  | nil => intro s s' hs; exact hs
  | @cons p q t t' hpq hrest ih =>
    intro s s' hs
    rw [List.foldl_cons, List.foldl_cons]
    apply ih
    obtain ⟨hidx, hns⟩ := hpq
    obtain ⟨i, n⟩ := p
    obtain ⟨j, m⟩ := q
    have hij : i = j := hidx
    subst hij
    cases n with
    | decl d =>
      cases m with
      | decl d2 =>
        exact declStep_shape hs (by exact hns) i
      | comment t2 => cases hns
    | comment t1 =>
      cases m with
      | decl d2 => cases hns
      | comment t2 => exact hs

theorem enumFrom_shape {ns ns' : List Node} (h : List.Forall₂ nodeShape ns ns') :
    ∀ n : Nat, List.Forall₂ pairShape (ns.enumFrom n) (ns'.enumFrom n) := by
  induction h with
  | nil => intro n; constructor
  | @cons a b t t' hab hrest ih =>
    intro n
    exact List.Forall₂.cons ⟨rfl, hab⟩ (ih (n + 1))

theorem finalState_shape {ns ns' : List Node} (h : List.Forall₂ nodeShape ns ns') :
    stateShape (finalState ns) (finalState ns') :=
  foldl_shape (enumFrom_shape h 0) ⟨List.Forall₂.nil, rfl, rfl⟩

/-- The set of removed positions depends only on the shape. -/
theorem removed_shape {ns ns' : List Node} (h : List.Forall₂ nodeShape ns ns') :
    (finalState ns).removed = (finalState ns').removed :=
  (finalState_shape h).2.2

theorem resolveNodes_shape {ns ns' : List Node} (h : List.Forall₂ nodeShape ns ns') :
    List.Forall₂ nodeShape (resolveNodes ns) (resolveNodes ns') := by
  rw [resolveNodes, resolveNodes, ← removed_shape h]
  have aux : ∀ {ps ps' : List (Nat × Node)}, List.Forall₂ pairShape ps ps' →
      List.Forall₂ nodeShape
        ((ps.filter (fun p => !((finalState ns).removed.contains p.1))).map Prod.snd)
        ((ps'.filter (fun p => !((finalState ns).removed.contains p.1))).map Prod.snd) := by
    intro ps ps' hps
    induction hps with
    | nil => constructor
    | @cons p q t t' hpq hrest ih =>
      obtain ⟨hidx, hns⟩ := hpq
      by_cases hkeep : (!((finalState ns).removed.contains p.1)) = true
      · have hkeep' : (!((finalState ns).removed.contains q.1)) = true := by
          rw [← hidx]
          exact hkeep
        rw [List.filter_cons, List.filter_cons, if_pos hkeep, if_pos hkeep',
          List.map_cons, List.map_cons]
        exact List.Forall₂.cons hns ih
      · have hkeep' : ¬ (!((finalState ns).removed.contains q.1)) = true := by
          rw [← hidx]
          exact hkeep
        rw [List.filter_cons, List.filter_cons, if_neg hkeep, if_neg hkeep']
        exact ih
  exact aux (enumFrom_shape h 0)

theorem isComment_shape {n n' : Node} (h : nodeShape n n') :
    n.isComment = n'.isComment := by
  cases n <;> cases n' <;> first | rfl | cases h

theorem isEmpty_shape {r r' : Rule} (h : List.Forall₂ nodeShape r.nodes r'.nodes) :
    isEmpty r = isEmpty r' := by
  rw [isEmpty, isEmpty, List.Forall₂.length_eq h]
  have aux : ∀ {ms ms' : List Node}, List.Forall₂ nodeShape ms ms' →
      (ms.filter (fun v => !v.isComment)).length
        = (ms'.filter (fun v => !v.isComment)).length := by
    intro ms ms' hm
    induction hm with
    | nil => rfl
    | @cons a b t t' hab hrest ih =>
      by_cases hcm : (!a.isComment) = true
      · have hcm' : (!b.isComment) = true := by rw [← isComment_shape hab]; exact hcm
        rw [List.filter_cons, List.filter_cons, if_pos hcm, if_pos hcm']
        simp [ih]
      · have hcm' : ¬ (!b.isComment) = true := by rw [← isComment_shape hab]; exact hcm
        rw [List.filter_cons, List.filter_cons, if_neg hcm, if_neg hcm']
        exact ih
  rw [aux h]

/-- Rules that are identical except for declaration values. -/
def ruleShape (r r' : Rule) : Prop :=
  r.selector = r'.selector ∧ List.Forall₂ nodeShape r.nodes r'.nodes

theorem processRule_shape (cfg : Config) {r r' : Rule} (h : ruleShape r r') :
    (processRule cfg r = Option.none ∧ processRule cfg r' = Option.none) ∨
    (∃ u u', processRule cfg r = some u ∧ processRule cfg r' = some u' ∧ ruleShape u u') := by
  obtain ⟨hsel, hns⟩ := h
  by_cases hgate : (cfg.selector.truthy && !matchSelector cfg.selector r.selector) = true
  · have hgate2 : (cfg.selector.truthy && !matchSelector cfg.selector r'.selector) = true := by
      rw [← hsel]
      exact hgate
    exact Or.inr ⟨r, r', by simp [processRule, hgate], by simp [processRule, hgate2],
      hsel, hns⟩
  · have hgate' : (cfg.selector.truthy && !matchSelector cfg.selector r.selector) = false := by
      simpa using hgate
    have hgate2 : (cfg.selector.truthy && !matchSelector cfg.selector r'.selector) = false := by
      rw [← hsel]
      exact hgate'
    by_cases hemp : isEmpty r = true
    · have hemp2 : isEmpty r' = true := by rw [← isEmpty_shape hns]; exact hemp
      by_cases hpe : cfg.preserveEmpty = true
      · exact Or.inr ⟨r, r', by simp [processRule, hgate', hemp, hpe],
          by simp [processRule, hgate2, hemp2, hpe], hsel, hns⟩
      · have hpe' : cfg.preserveEmpty = false := by simpa using hpe
        exact Or.inl ⟨by simp [processRule, hgate', hemp, hpe'],
          by simp [processRule, hgate2, hemp2, hpe']⟩
    · have hemp' : isEmpty r = false := by simpa using hemp
      have hemp2 : isEmpty r' = false := by rw [← isEmpty_shape hns]; exact hemp'
      exact Or.inr ⟨{ r with nodes := resolveNodes r.nodes },
        { r' with nodes := resolveNodes r'.nodes },
        processRule_resolved hgate' hemp', processRule_resolved hgate2 hemp2,
        hsel, resolveNodes_shape hns⟩

/-- The decisions the pass takes on a rule: which declaration positions it
removes, and whether the rule node itself survives. -/
def ruleDecisions (cfg : Config) (r r' : Rule) : Prop :=
  (finalState r.nodes).removed = (finalState r'.nodes).removed ∧
  (processRule cfg r).isSome = (processRule cfg r').isSome

theorem ruleDecisions_of_shape (cfg : Config) {r r' : Rule} (h : ruleShape r r') :
    ruleDecisions cfg r r' := by
  refine ⟨removed_shape h.2, ?_⟩
  rcases processRule_shape cfg h with ⟨h1, h2⟩ | ⟨u, u', h1, h2, _⟩
  · rw [h1, h2]
  · rw [h1, h2]
    rfl

/-- Tree-level shape equality. -/
def rootShape : RootNode → RootNode → Prop
  | .rule r, .rule r' => ruleShape r r'
  | .atRule p rs, .atRule p' rs' => p = p' ∧ List.Forall₂ ruleShape rs rs'
  | .comment t, .comment t' => t = t'
  | _, _ => False

/-- Tree-level decision equality: rules are removed at the same places and
each rule's pass removes the same declaration positions. -/
def sameDecisions (cfg : Config) : RootNode → RootNode → Prop
  | .rule r, .rule r' => ruleDecisions cfg r r'
  | .atRule _ rs, .atRule _ rs' => List.Forall₂ (ruleDecisions cfg) rs rs'
  | .comment _, .comment _ => True
  | _, _ => False

theorem filterMap_processRule_shape (cfg : Config) {rs rs' : List Rule}
    (h : List.Forall₂ ruleShape rs rs') :
    List.Forall₂ ruleShape (rs.filterMap (processRule cfg)) (rs'.filterMap (processRule cfg)) := by
  induction h with
  | nil => constructor
  | @cons a b t t' hab hrest ih =>
    rcases processRule_shape cfg hab with ⟨h1, h2⟩ | ⟨u, u', h1, h2, huu⟩
    · rw [List.filterMap_cons, List.filterMap_cons, h1, h2]
      exact ih
    · rw [List.filterMap_cons, List.filterMap_cons, h1, h2]
      exact List.Forall₂.cons huu ih

theorem transformRoot_shape (cfg : Config) {root root' : List RootNode}
    (h : List.Forall₂ rootShape root root') :
    List.Forall₂ rootShape (transformRoot cfg root) (transformRoot cfg root') := by
  induction h with
  | nil => constructor
  | @cons a b t t' hab hrest ih =>
    rw [transformRoot, List.filterMap_cons]
    rw [show transformRoot cfg (b :: t') = (b :: t').filterMap (processRootNode cfg) from rfl,
      List.filterMap_cons]
    cases a with
    | comment ta =>
      cases b with
      | comment tb =>
        have htt : ta = tb := hab
        subst htt
        exact List.Forall₂.cons (by exact rfl) ih
      | rule _ => cases hab
      | atRule _ _ => cases hab
    | rule ra =>
      cases b with
      | rule rb =>
        have hab' : ruleShape ra rb := hab
        rcases processRule_shape cfg hab' with ⟨h1, h2⟩ | ⟨u, u', h1, h2, huu⟩
        · rw [show processRootNode cfg (RootNode.rule ra)
              = (processRule cfg ra).map RootNode.rule from rfl, h1]
          rw [show processRootNode cfg (RootNode.rule rb)
              = (processRule cfg rb).map RootNode.rule from rfl, h2]
          exact ih
        · rw [show processRootNode cfg (RootNode.rule ra)
              = (processRule cfg ra).map RootNode.rule from rfl, h1]
          rw [show processRootNode cfg (RootNode.rule rb)
              = (processRule cfg rb).map RootNode.rule from rfl, h2]
          exact List.Forall₂.cons (by exact huu) ih
      | comment _ => cases hab
      | atRule _ _ => cases hab
    | atRule pa rsa =>
      cases b with
      | atRule pb rsb =>
        have hab' : pa = pb ∧ List.Forall₂ ruleShape rsa rsb := hab
        obtain ⟨hpp, hrs⟩ := hab'
        subst hpp
        exact List.Forall₂.cons
          (show rootShape (RootNode.atRule pa (rsa.filterMap (processRule cfg)))
              (RootNode.atRule pa (rsb.filterMap (processRule cfg))) from
            ⟨rfl, filterMap_processRule_shape cfg hrs⟩) ih
      | comment _ => cases hab
      | rule _ => cases hab

theorem sameDecisions_of_rootShape (cfg : Config) {a b : RootNode} (h : rootShape a b) :
    sameDecisions cfg a b := by
  cases a with
  | comment ta =>
    cases b with
    | comment tb => trivial
    | rule _ => cases h
    | atRule _ _ => cases h
  | rule ra =>
    cases b with
    | rule rb => exact ruleDecisions_of_shape cfg h
    | comment _ => cases h
    | atRule _ _ => cases h
  | atRule pa rsa =>
    cases b with
    | atRule pb rsb =>
      have h' : pa = pb ∧ List.Forall₂ ruleShape rsa rsb := h
      show List.Forall₂ (ruleDecisions cfg) rsa rsb
      exact List.Forall₂.imp (fun ra rb hr => ruleDecisions_of_shape cfg hr) h'.2
    | comment _ => cases h
    | rule _ => cases h

/-! ### Claim theorems -/

/-- A rule is eligible when the filter gate lets it through. -/
theorem gate_false_of_elig {cfg : Config} {r : Rule}
    (helig : cfg.selector.truthy = true → matchSelector cfg.selector r.selector = true) :
    (cfg.selector.truthy && !matchSelector cfg.selector r.selector) = false := by
  by_cases ht : cfg.selector.truthy = true
  · simp [ht, helig ht]
  · have ht' : cfg.selector.truthy = false := by simpa using ht
    simp [ht']

theorem filter_keyDecl_nil_of_empty {r : Rule} (h : isEmpty r = true) (k : String) :
    r.nodes.filter (keyDecl k) = [] := by
  apply List.filter_eq_nil_iff.mpr
  intro n hn hkd
  obtain ⟨d, hnd, _, _⟩ := keyDecl_eq_true.mp hkd
  have hmemf : n ∈ r.nodes.filter (fun v => !v.isComment) :=
    List.mem_filter.mpr ⟨hn, by rw [hnd]; simp [Node.isComment]⟩
  have hne : r.nodes.filter (fun v => !v.isComment) ≠ [] := List.ne_nil_of_mem hmemf
  exact hne (List.length_eq_zero.mp (isEmpty_eq_true.mp h))

theorem specWinner_of_nil {ns : List Node} {k : String}
    (h : ns.filter (keyDecl k) = []) : specWinner ns k = Option.none := by
  simp [specWinner, h]

/-- C1: for every rule eligible under the selector filter and every property
name occurring among its well-formed declarations, the surviving declarations
for that property after the transform are exactly one node — the last
`!important` declaration for it in source order if any exists, otherwise the
last declaration for it in source order (this is what `specWinner` computes). -/
theorem c1_cascade_winner (cfg : Config) (r : Rule) (k : String)
    (helig : cfg.selector.truthy = true → matchSelector cfg.selector r.selector = true)
    (hocc : r.nodes.filter (keyDecl k) ≠ []) :
    ∃ r', processRule cfg r = some r' ∧
      r'.nodes.filter (keyDecl k) = (specWinner r.nodes k).toList ∧
      (specWinner r.nodes k).isSome = true := by
  have hgate := gate_false_of_elig helig
  have hne : isEmpty r = false := by
    apply isEmpty_eq_false.mpr
    obtain ⟨n, hn⟩ := List.exists_mem_of_ne_nil _ hocc
    have hmf := List.mem_filter.mp hn
    obtain ⟨d, hnd, _, _⟩ := keyDecl_eq_true.mp hmf.2
    exact ⟨d, hnd ▸ hmf.1⟩
  refine ⟨_, processRule_resolved hgate hne, resolve_filter_key r.nodes k, ?_⟩
  by_contra hcc
  have hnone : specWinner r.nodes k = Option.none := by
    cases hw : specWinner r.nodes k with
    | none => rfl
    | some w => rw [hw] at hcc; simp at hcc
  rw [specWinner] at hnone
  by_cases hem : ((r.nodes.filter (keyDecl k)).filter Node.isImportantNode).isEmpty = true
  · rw [if_pos hem] at hnone
    exact hocc (List.getLast?_eq_none_iff.mp hnone)
  · rw [if_neg hem] at hnone
    have : (r.nodes.filter (keyDecl k)).filter Node.isImportantNode = [] :=
      List.getLast?_eq_none_iff.mp hnone
    rw [this] at hem
    simp at hem

/-- C1 witness at `color: red !important; color: yellow !important; color: blue`. -/
theorem c1_cascade_winner_witness :
    ∃ r', processRule ⟨SelectorConfig.undef, false⟩
        ⟨".a", [Node.decl ⟨"color", "red", true⟩, Node.decl ⟨"color", "yellow", true⟩,
          Node.decl ⟨"color", "blue", false⟩]⟩ = some r' ∧
      r'.nodes.filter (keyDecl "color")
        = (specWinner [Node.decl ⟨"color", "red", true⟩, Node.decl ⟨"color", "yellow", true⟩,
            Node.decl ⟨"color", "blue", false⟩] "color").toList ∧
      (specWinner [Node.decl ⟨"color", "red", true⟩, Node.decl ⟨"color", "yellow", true⟩,
          Node.decl ⟨"color", "blue", false⟩] "color").isSome = true :=
  c1_cascade_winner ⟨SelectorConfig.undef, false⟩ _ "color"
    (fun h => absurd h (by decide)) (by decide)

/-- C2: a processed rule keeps at most one well-formed declaration per dedup
key (the literal property name), and every key — vendor-prefixed or not — is
resolved by the same last/important-wins rule, computed only from that key's
own declarations (so prefixed and unprefixed names never merge). -/
theorem c2_dedup_key (cfg : Config) (r r' : Rule)
    (helig : cfg.selector.truthy = true → matchSelector cfg.selector r.selector = true)
    (hp : processRule cfg r = some r') :
    ∀ k, (r'.nodes.filter (keyDecl k)).length ≤ 1 ∧
      r'.nodes.filter (keyDecl k) = (specWinner r.nodes k).toList := by
  intro k
  have hgate := gate_false_of_elig helig
  by_cases hemp : isEmpty r = true
  · have hr : r' = r := by
      by_cases hpe : cfg.preserveEmpty = true
      · have := hp
        simp only [processRule, hgate, hemp, hpe] at this
        simpa using (Option.some.inj (by simpa using this)).symm
      · exfalso
        have hpe' : cfg.preserveEmpty = false := by simpa using hpe
        simp [processRule, hgate, hemp, hpe'] at hp
    subst hr
    rw [filter_keyDecl_nil_of_empty hemp k, specWinner_of_nil (filter_keyDecl_nil_of_empty hemp k)]
    exact ⟨by simp, rfl⟩
  · have hemp' : isEmpty r = false := by simpa using hemp
    have hr : r' = { r with nodes := resolveNodes r.nodes } := by
      rw [processRule_resolved hgate hemp'] at hp
      exact (Option.some.inj hp).symm
    subst hr
    exact ⟨resolve_key_le_one r.nodes k, resolve_filter_key r.nodes k⟩

/-- C2 witness at a rule mixing `-webkit-transform` (twice) and `transform`,
read off at the vendor-prefixed key. -/
theorem c2_dedup_key_witness :
    ((Rule.mk ".a" [Node.decl ⟨"-webkit-transform", "rotate(90deg)", true⟩,
        Node.decl ⟨"transform", "rotate(45deg)", false⟩]).nodes.filter
          (keyDecl "-webkit-transform")).length ≤ 1 ∧
      (Rule.mk ".a" [Node.decl ⟨"-webkit-transform", "rotate(90deg)", true⟩,
        Node.decl ⟨"transform", "rotate(45deg)", false⟩]).nodes.filter
          (keyDecl "-webkit-transform")
        = (specWinner [Node.decl ⟨"-webkit-transform", "rotate(45deg)", true⟩,
            Node.decl ⟨"-webkit-transform", "rotate(90deg)", true⟩,
            Node.decl ⟨"transform", "rotate(45deg)", false⟩] "-webkit-transform").toList :=
  c2_dedup_key ⟨SelectorConfig.undef, false⟩
    ⟨".a", [Node.decl ⟨"-webkit-transform", "rotate(45deg)", true⟩,
      Node.decl ⟨"-webkit-transform", "rotate(90deg)", true⟩,
      Node.decl ⟨"transform", "rotate(45deg)", false⟩]⟩ _
    (fun h => absurd h (by decide)) (by decide) "-webkit-transform"

/-- C3: the children surviving the transform appear in exactly their input
relative order — the output child list is a sublist of the input child list. -/
theorem c3_order_preserved (cfg : Config) (r r' : Rule)
    (h : processRule cfg r = some r') : r'.nodes.Sublist r.nodes := by
  by_cases hgate : (cfg.selector.truthy && !matchSelector cfg.selector r.selector) = true
  · have hr : r' = r := by
      have := h
      simp only [processRule, hgate, if_pos] at this
      exact (Option.some.inj (by simpa using this)).symm
    subst hr
    exact List.Sublist.refl _
  · have hgate' : (cfg.selector.truthy && !matchSelector cfg.selector r.selector) = false := by
      simpa using hgate
    by_cases hemp : isEmpty r = true
    · by_cases hpe : cfg.preserveEmpty = true
      · have hr : r' = r := by
          have := h
          simp only [processRule, hgate', hemp, hpe] at this
          simpa using (Option.some.inj (by simpa using this)).symm
        subst hr
        exact List.Sublist.refl _
      · exfalso
        have hpe' : cfg.preserveEmpty = false := by simpa using hpe
        simp [processRule, hgate', hemp, hpe'] at h
    · have hemp' : isEmpty r = false := by simpa using hemp
      have hr : r' = { r with nodes := resolveNodes r.nodes } := by
        rw [processRule_resolved hgate' hemp'] at h
        exact (Option.some.inj h).symm
      subst hr
      exact resolveNodes_sublist r.nodes

/-- C3 witness at `color: red; color: blue; margin: 10px`. -/
theorem c3_order_preserved_witness :
    (Rule.mk ".a" [Node.decl ⟨"color", "blue", false⟩,
      Node.decl ⟨"margin", "10px", false⟩]).nodes.Sublist
      (Rule.mk ".a" [Node.decl ⟨"color", "red", false⟩, Node.decl ⟨"color", "blue", false⟩,
        Node.decl ⟨"margin", "10px", false⟩]).nodes :=
  c3_order_preserved ⟨SelectorConfig.undef, false⟩ _ _ (by decide)

/-- C4: with a (truthy) configured selector filter, a rule whose selector
text does not satisfy the matcher is returned unchanged — not resolved and
not pruned, even when empty. -/
theorem c4_filter_exactness (cfg : Config) (r : Rule)
    (h1 : cfg.selector.truthy = true)
    (h2 : matchSelector cfg.selector r.selector = false) :
    processRule cfg r = some r := by
  simp [processRule, h1, h2]

/-- C4 witness: an empty non-matching rule survives untouched under
`selector: ".x"`. -/
theorem c4_filter_exactness_witness :
    processRule ⟨SelectorConfig.str ".x", false⟩ ⟨".y", []⟩ = some ⟨".y", []⟩ :=
  c4_filter_exactness ⟨SelectorConfig.str ".x", false⟩ ⟨".y", []⟩ (by decide) (by decide)

/-- C5 counterexample: a truthy selector value of invalid type (JS truthiness
`true`, not a string/RegExp/function) makes `matchSelector` reject every
selector, so the rule is returned untouched with both duplicate `color`
declarations still present — contradicting "every rule matches and is
processed". -/
theorem c5_counterexample :
    matchSelector (SelectorConfig.other true) ".a" = false ∧
    processRule ⟨SelectorConfig.other true, false⟩
        ⟨".a", [Node.decl ⟨"color", "red", false⟩, Node.decl ⟨"color", "blue", false⟩]⟩
      = some ⟨".a", [Node.decl ⟨"color", "red", false⟩, Node.decl ⟨"color", "blue", false⟩]⟩ ∧
    ((Rule.mk ".a" [Node.decl ⟨"color", "red", false⟩,
      Node.decl ⟨"color", "blue", false⟩]).nodes.filter (keyDecl "color")).length = 2 := by
  refine ⟨rfl, by decide, by decide⟩

/-- C5 amended: an invalid-type selector raises no error, but it is only
treated as "no filter" when the value is falsy; a truthy invalid value acts
as match-nothing — every rule is left unchanged (not processed). -/
theorem c5_invalid_selector_amended (pe : Bool) (r : Rule) :
    processRule ⟨SelectorConfig.other true, pe⟩ r = some r ∧
    processRule ⟨SelectorConfig.other false, pe⟩ r
      = processRule ⟨SelectorConfig.undef, pe⟩ r := by
  constructor
  · simp [processRule, SelectorConfig.truthy, matchSelector]
  · rfl

/-- C6: an eligible rule is empty exactly when it has zero non-comment
children, and an empty rule is removed when `preserveEmpty` is false and kept
when it is true — comments play no role in the decision. -/
theorem c6_emptiness_policy (cfg : Config) (r : Rule)
    (helig : cfg.selector.truthy = true → matchSelector cfg.selector r.selector = true) :
    (isEmpty r = true ↔ (r.nodes.filter (fun v => !v.isComment)).length = 0) ∧
    (isEmpty r = true →
      processRule cfg r = if cfg.preserveEmpty then some r else Option.none) := by
  refine ⟨isEmpty_eq_true, fun hemp => ?_⟩
  have hgate := gate_false_of_elig helig
  by_cases hpe : cfg.preserveEmpty = true
  · simp [processRule, hgate, hemp, hpe]
  · have hpe' : cfg.preserveEmpty = false := by simpa using hpe
    simp [processRule, hgate, hemp, hpe']

/-- C6 witness at a comment-only rule. -/
theorem c6_emptiness_policy_witness :
    (isEmpty ⟨".a", [Node.comment "x"]⟩ = true ↔
      ((Rule.mk ".a" [Node.comment "x"]).nodes.filter (fun v => !v.isComment)).length = 0) ∧
    (isEmpty ⟨".a", [Node.comment "x"]⟩ = true →
      processRule ⟨SelectorConfig.undef, false⟩ ⟨".a", [Node.comment "x"]⟩
        = if (false : Bool) then some ⟨".a", [Node.comment "x"]⟩ else Option.none) :=
  c6_emptiness_policy ⟨SelectorConfig.undef, false⟩ ⟨".a", [Node.comment "x"]⟩
    (fun h => absurd h (by decide))

/-- C7: the transform is idempotent — a second run over the output of a
first run removes no declarations and no rules. -/
theorem c7_idempotent (cfg : Config) (root : List RootNode) :
    transformRoot cfg (transformRoot cfg root) = transformRoot cfg root :=
  transformRoot_idem cfg root

/-- C8: a declaration with an empty (missing) property or value is skipped:
the step leaves the state untouched (it is not recorded as a candidate), the
node is never removed, and it survives into the output; processing is total. -/
theorem c8_invalid_decl_skipped (ns : List Node) (i : Nat) (d : Decl)
    (hmem : (i, Node.decl d) ∈ ns.enum) (hinv : d.prop = "" ∨ d.value = "") :
    (∀ s, declStep s i d = s) ∧ i ∉ (finalState ns).removed ∧
      Node.decl d ∈ resolveNodes ns := by
  have hbool : (d.prop == "" || d.value == "") = true := by
    rcases hinv with h | h <;> simp [h]
  have hval : isValidDecl (Node.decl d) = false := by
    show (!(d.prop == "") && !(d.value == "")) = false
    rcases hinv with h | h <;> simp [h]
  exact ⟨fun s => declStep_invalid s i d hbool, invalid_not_removed hmem hval,
    mem_resolveNodes hmem (invalid_not_removed hmem hval)⟩

/-- C8 witness: a value-less `color` declaration after a normal one. -/
theorem c8_invalid_decl_skipped_witness :
    (∀ s, declStep s 1 ⟨"color", "", false⟩ = s) ∧
    1 ∉ (finalState [Node.decl ⟨"color", "red", false⟩,
      Node.decl ⟨"color", "", false⟩]).removed ∧
    Node.decl ⟨"color", "", false⟩ ∈ resolveNodes
      [Node.decl ⟨"color", "red", false⟩, Node.decl ⟨"color", "", false⟩] :=
  c8_invalid_decl_skipped
    [Node.decl ⟨"color", "red", false⟩, Node.decl ⟨"color", "", false⟩] 1
    ⟨"color", "", false⟩ (by decide) (Or.inr rfl)

/-- C9: a rule containing at least one declaration is never removed by the
transform, and it still contains at least one declaration afterwards. -/
theorem c9_rule_with_decl_preserved (cfg : Config) (r : Rule)
    (h : ∃ d, Node.decl d ∈ r.nodes) :
    ∃ r', processRule cfg r = some r' ∧ ∃ d', Node.decl d' ∈ r'.nodes := by
  by_cases hgate : (cfg.selector.truthy && !matchSelector cfg.selector r.selector) = true
  · refine ⟨r, ?_, h⟩
    simp [processRule, hgate]
  · have hgate' : (cfg.selector.truthy && !matchSelector cfg.selector r.selector) = false := by
      simpa using hgate
    have hne : isEmpty r = false := isEmpty_eq_false.mpr h
    exact ⟨_, processRule_resolved hgate' hne, exists_decl_resolve h⟩

/-- C9 witness at `color: red; color: blue`. -/
theorem c9_rule_with_decl_preserved_witness :
    ∃ r', processRule ⟨SelectorConfig.undef, false⟩
        ⟨".a", [Node.decl ⟨"color", "red", false⟩, Node.decl ⟨"color", "blue", false⟩]⟩
      = some r' ∧ ∃ d', Node.decl d' ∈ r'.nodes :=
  c9_rule_with_decl_preserved ⟨SelectorConfig.undef, false⟩
    ⟨".a", [Node.decl ⟨"color", "red", false⟩, Node.decl ⟨"color", "blue", false⟩]⟩
    ⟨⟨"color", "red", false⟩, by decide⟩

/-- C10: removal decisions depend only on each declaration's property name
and important flag, never on its value. Two trees identical except for
(nonempty) declaration values drive the transform to the same decisions —
identical removed positions in every rule and identical rule removals — and
their outputs are again identical except for declaration values. -/
theorem c10_value_independence (cfg : Config) (root root' : List RootNode)
    (h : List.Forall₂ rootShape root root') :
    List.Forall₂ (sameDecisions cfg) root root' ∧
    List.Forall₂ rootShape (transformRoot cfg root) (transformRoot cfg root') :=
  ⟨List.Forall₂.imp (fun a b hab => sameDecisions_of_rootShape cfg hab) h,
   transformRoot_shape cfg h⟩

/-- C10 witness: the same rule with `red/blue` versus `green/yellow` values. -/
theorem c10_value_independence_witness :
    List.Forall₂ (sameDecisions ⟨SelectorConfig.undef, false⟩)
      [RootNode.rule ⟨".a", [Node.decl ⟨"color", "red", false⟩,
        Node.decl ⟨"color", "blue", false⟩]⟩]
      [RootNode.rule ⟨".a", [Node.decl ⟨"color", "green", false⟩,
        Node.decl ⟨"color", "yellow", false⟩]⟩] ∧
    List.Forall₂ rootShape
      (transformRoot ⟨SelectorConfig.undef, false⟩
        [RootNode.rule ⟨".a", [Node.decl ⟨"color", "red", false⟩,
          Node.decl ⟨"color", "blue", false⟩]⟩])
      (transformRoot ⟨SelectorConfig.undef, false⟩
        [RootNode.rule ⟨".a", [Node.decl ⟨"color", "green", false⟩,
          Node.decl ⟨"color", "yellow", false⟩]⟩]) :=
  c10_value_independence ⟨SelectorConfig.undef, false⟩ _ _
    (List.Forall₂.cons
      (show ruleShape ⟨".a", [Node.decl ⟨"color", "red", false⟩,
          Node.decl ⟨"color", "blue", false⟩]⟩
        ⟨".a", [Node.decl ⟨"color", "green", false⟩,
          Node.decl ⟨"color", "yellow", false⟩]⟩ from
        ⟨rfl, List.Forall₂.cons ⟨rfl, rfl, by decide, by decide⟩
          (List.Forall₂.cons ⟨rfl, rfl, by decide, by decide⟩ List.Forall₂.nil)⟩)
      List.Forall₂.nil)

end RemoveDup
